import Mathlib

/-!
Verification of the DICTOL_python optimization module (`optimize.py`).

The file shallowly embeds the three solvers of the module over real matrices
(`Matrix (Fin d) (Fin k) ℝ`):

* `ODL_updateD` — the block-coordinate-descent dictionary updater,
* `DLSI_updateD` — the ADMM dictionary updater,
* `Lasso.solve` — the FISTA engine specialized to the Lasso problem.

Python's in-place column updates become an ordered fold over column indices;
the `for ... break` loops become structural recursions on the remaining
iteration count.  The Python scoping failure of `Fista.solve` at
`iterations = 0` (the returned variable is first assigned inside the loop) is
modelled by an `Option` result.  The numeric helpers that live in the
repository's `utils` module are modelled from the specification, as marked on
each of their doc comments.
-/

open Matrix BigOperators

noncomputable section

/-! ## Numeric utility collaborators (the repository's `utils` module) -/

/-- Modelled from the spec: `elementCount(M)` (`utils.numel`), the number of
entries of a matrix. -/
def numel {d k : ℕ} (_M : Matrix (Fin d) (Fin k) ℝ) : ℕ := d * k

/-- Modelled from the spec: `frobeniusNormSquared(M)` (`utils.normF2`), the sum
of the squared entries. -/
def normF2 {d k : ℕ} (M : Matrix (Fin d) (Fin k) ℝ) : ℝ := ∑ i, ∑ j, M i j ^ 2

/-- Modelled from the spec: `l1Norm(M)` (`utils.norm1`), the sum of the
absolute values of the entries. -/
def norm1 {d k : ℕ} (M : Matrix (Fin d) (Fin k) ℝ) : ℝ := ∑ i, ∑ j, |M i j|

/-- Modelled from the spec: `shrinkage(M, t) = sign(M)·max(|M| − t, 0)`
applied elementwise (`utils.shrinkage`, soft-thresholding). -/
def shrinkage {d k : ℕ} (M : Matrix (Fin d) (Fin k) ℝ) (t : ℝ) :
    Matrix (Fin d) (Fin k) ℝ :=
  Matrix.of fun i j => Real.sign (M i j) * max (|M i j| - t) 0

/-- Modelled from the spec: `inverseViaLowRankUpdate(Y, X)` (`utils.inv_IpXY`)
computes `(I + Y·X)⁻¹`. -/
def inv_IpXY {m p : ℕ} (Y : Matrix (Fin m) (Fin p) ℝ) (X : Matrix (Fin p) (Fin m) ℝ) :
    Matrix (Fin m) (Fin m) ℝ :=
  (1 + Y * X)⁻¹

/-! ## Column-vector helpers (numpy's `LA.norm(·, 2)` and friends) -/

/-- Dot product of two column vectors. -/
def dotc {d : ℕ} (u v : Fin d → ℝ) : ℝ := ∑ r, u r * v r

/-- Sum of squared entries of a column vector. -/
def nsq {d : ℕ} (v : Fin d → ℝ) : ℝ := ∑ r, v r ^ 2

/-- Euclidean norm of a column vector, numpy's `LA.norm(v, 2)`. -/
def vecNorm2 {d : ℕ} (v : Fin d → ℝ) : ℝ := Real.sqrt (nsq v)

/-- Frobenius norm of a matrix, numpy's `LA.norm(M, 'fro')`. -/
def froNorm {d k : ℕ} (M : Matrix (Fin d) (Fin k) ℝ) : ℝ := Real.sqrt (normF2 M)

/-- Column `i` of a matrix, as a vector. -/
def Mcol {d k : ℕ} (M : Matrix (Fin d) (Fin k) ℝ) (i : Fin k) : Fin d → ℝ :=
  fun r => M r i

/-! ## `ODL_updateD`: block-coordinate-descent dictionary updater -/

variable {d k n N : ℕ}

/-- The vector `a = 1/F[i,i] * (E[:,i] - D.dot(F[:,i])) + D[:,i]` from the
body of the column loop of `ODL_updateD`. -/
def odlA (E : Matrix (Fin d) (Fin k) ℝ) (F : Matrix (Fin k) (Fin k) ℝ)
    (D : Matrix (Fin d) (Fin k) ℝ) (i : Fin k) : Fin d → ℝ :=
  fun r => 1 / F i i * (E r i - Matrix.mulVec D (Mcol F i) r) + D r i

/-- One column update of `ODL_updateD`: skipped when `F[i,i] == 0`, otherwise
`D[:,i] = a / max(‖a‖₂, 1)`. -/
def ODL_updateCol (E : Matrix (Fin d) (Fin k) ℝ) (F : Matrix (Fin k) (Fin k) ℝ)
    (D : Matrix (Fin d) (Fin k) ℝ) (i : Fin k) : Matrix (Fin d) (Fin k) ℝ :=
  if F i i = 0 then D
  else D.updateColumn i fun r => odlA E F D i r / max (vecNorm2 (odlA E F D i)) 1

/-- One full sweep of `ODL_updateD`: the columns `i = 0 .. k-1` updated in
index order, each update reading the partially updated dictionary. -/
def ODL_sweep (E : Matrix (Fin d) (Fin k) ℝ) (F : Matrix (Fin k) (Fin k) ℝ)
    (D : Matrix (Fin d) (Fin k) ℝ) : Matrix (Fin d) (Fin k) ℝ :=
  (List.finRange k).foldl (ODL_updateCol E F) D

/-- The outer iteration of `ODL_updateD`: sweep, then stop as soon as
`‖D - D_old‖_F / sizeD < tol`, else continue on the remaining budget. -/
def ODL_loop (E : Matrix (Fin d) (Fin k) ℝ) (F : Matrix (Fin k) (Fin k) ℝ)
    (sizeD : ℕ) (tol : ℝ) : ℕ → Matrix (Fin d) (Fin k) ℝ → Matrix (Fin d) (Fin k) ℝ
  | 0, D => D
  | m + 1, D =>
    let D2 := ODL_sweep E F D
    if froNorm (D2 - D) / (sizeD : ℝ) < tol then D2
    else ODL_loop E F sizeD tol m D2

/-- `ODL_updateD(D, E, F, iterations, tol)` from `optimize.py` (defaults in the
source: `iterations = 100`, `tol = 1e-8`). -/
def ODL_updateD (D : Matrix (Fin d) (Fin k) ℝ) (E : Matrix (Fin d) (Fin k) ℝ)
    (F : Matrix (Fin k) (Fin k) ℝ) (iterations : ℕ) (tol : ℝ) :
    Matrix (Fin d) (Fin k) ℝ :=
  ODL_loop E F (numel D) tol iterations D

/-- The quadratic objective `-2·trace(E·Dᵀ) + trace(D·F·Dᵀ)` minimized by
`ODL_updateD` (the `calc_cost` of the source, up to trace cyclicity). -/
def costODL (E : Matrix (Fin d) (Fin k) ℝ) (F : Matrix (Fin k) (Fin k) ℝ)
    (D : Matrix (Fin d) (Fin k) ℝ) : ℝ :=
  -2 * (E * D.transpose).trace + (D * F * D.transpose).trace

/-! ## `DLSI_updateD`: ADMM dictionary updater -/

/-- The penalty parameter `rho`, fixed at `1.0` in the source. -/
def dlsiRho : ℝ := 1

/-- The precomputed matrix `B1 = X·(I + Y·X)⁻¹` with `X = (2·lambda1/rho)·Aᵀ`
and `Y = A`, from `DLSI_updateD`. -/
def dlsiB1 (A : Matrix (Fin n) (Fin d) ℝ) (lambda1 : ℝ) :
    Matrix (Fin d) (Fin n) ℝ :=
  ((2 * lambda1 / dlsiRho) • A.transpose) * inv_IpXY A ((2 * lambda1 / dlsiRho) • A.transpose)

/-- The ADMM state of `DLSI_updateD`: the dictionary `D`, the consensus copy
`Z_old` and the scaled dual variable `U`. -/
structure DLSIState (d k : ℕ) where
  D : Matrix (Fin d) (Fin k) ℝ
  Zold : Matrix (Fin d) (Fin k) ℝ
  U : Matrix (Fin d) (Fin k) ℝ

/-- One full ADMM iteration of `DLSI_updateD`: primal update through
`ODL_updateD`, auxiliary update of `Z`, dual update of `U`. -/
def dlsiStep (E : Matrix (Fin d) (Fin k) ℝ) (F : Matrix (Fin k) (Fin k) ℝ)
    (A : Matrix (Fin n) (Fin d) ℝ) (lambda1 : ℝ) (s : DLSIState d k) :
    DLSIState d k :=
  let W := s.Zold - s.U
  let E2 := E + (dlsiRho / 2) • W
  let F2 := F + (dlsiRho / 2) • (1 : Matrix (Fin k) (Fin k) ℝ)
  let D2 := ODL_updateD s.D E2 F2 100 (1e-8 : ℝ)
  let V := D2 + s.U
  let Znew := dlsiRho • (V - dlsiB1 A lambda1 * (A * V))
  ⟨D2, Znew, s.U + D2 - Znew⟩

/-- The iteration of `DLSI_updateD`: step, then stop as soon as both residuals
`e1 = ‖D - Z_new‖_F²` and `e2 = rho·‖Z_new - Z_old‖_F²` are below `1e-8`;
the dual update is performed only when the loop continues, and the result is
always the dictionary `D`, never `Z`. -/
def DLSI_loop (E : Matrix (Fin d) (Fin k) ℝ) (F : Matrix (Fin k) (Fin k) ℝ)
    (A : Matrix (Fin n) (Fin d) ℝ) (lambda1 : ℝ) :
    ℕ → DLSIState d k → Matrix (Fin d) (Fin k) ℝ
  | 0, s => s.D
  | m + 1, s =>
    let s2 := dlsiStep E F A lambda1 s
    if normF2 (s2.D - s2.Zold) < (1e-8 : ℝ) ∧
        dlsiRho * normF2 (s2.Zold - s.Zold) < (1e-8 : ℝ) then s2.D
    else DLSI_loop E F A lambda1 m s2

/-- `DLSI_updateD(D, E, F, A, lambda1, iterations)` from `optimize.py`
(default in the source: `iterations = 100`); starts from `Z_old = D`,
`U = 0`. -/
def DLSI_updateD (D : Matrix (Fin d) (Fin k) ℝ) (E : Matrix (Fin d) (Fin k) ℝ)
    (F : Matrix (Fin k) (Fin k) ℝ) (A : Matrix (Fin n) (Fin d) ℝ)
    (lambda1 : ℝ) (iterations : ℕ) : Matrix (Fin d) (Fin k) ℝ :=
  DLSI_loop E F A lambda1 iterations ⟨D, D, 0⟩

/-! ## FISTA engine and its Lasso specialization -/

/-- Proof that `Dᵀ·D` is Hermitian (symmetric) over `ℝ`, feeding the
eigenvalue computation below. -/
def DtD_isHermitian (D : Matrix (Fin d) (Fin k) ℝ) :
    (D.transpose * D).IsHermitian := by
  have h := Matrix.isHermitian_transpose_mul_self D
  simpa [Matrix.conjTranspose, Matrix.transpose] using h

/-- The largest eigenvalue of `Dᵀ·D`, numpy's `np.max(LA.eig(DtD)[0])` for the
symmetric positive semidefinite matrix `DtD`. -/
def lassoL (D : Matrix (Fin d) (Fin k) ℝ) : ℝ :=
  ⨆ i, (DtD_isHermitian D).eigenvalues i

/-- The state fixed by the `Lasso` constructor: the dictionary `D`, the L1
weight `lamb`, and the derived `DtD = Dᵀ·D` and Lipschitz constant `L`
computed once at construction. -/
structure Lasso (d k : ℕ) where
  D : Matrix (Fin d) (Fin k) ℝ
  lamb : ℝ
  DtD : Matrix (Fin k) (Fin k) ℝ
  L : ℝ

/-- `Lasso.__init__(D, lamb)`: stores `D`, `lamb`, `DtD = Dᵀ·D` and
`L = max eigenvalue of DtD`. -/
def Lasso.init (D : Matrix (Fin d) (Fin k) ℝ) (lamb : ℝ) : Lasso d k :=
  ⟨D, lamb, D.transpose * D, lassoL D⟩

/-- A `Lasso` instance after `fit(Y)`: the data `Y` is bound and
`DtY = Dᵀ·Y` recomputed. -/
structure LassoFitted (d k N : ℕ) extends Lasso d k where
  Y : Matrix (Fin d) (Fin N) ℝ
  DtY : Matrix (Fin k) (Fin N) ℝ

/-- `Lasso.fit(Y)`: binds `Y`, recomputes `DtY = Dᵀ·Y`. -/
def Lasso.fit (l : Lasso d k) (Y : Matrix (Fin d) (Fin N) ℝ) :
    LassoFitted d k N :=
  ⟨l, Y, l.D.transpose * Y⟩

/-- `Lasso._grad(X) = DtD·X - DtY`. -/
def LassoFitted.grad (lf : LassoFitted d k N) (X : Matrix (Fin k) (Fin N) ℝ) :
    Matrix (Fin k) (Fin N) ℝ :=
  lf.DtD * X - lf.DtY

/-- `Lasso._calc_f(X) = 0.5·‖Y - D·X‖_F²`. -/
def LassoFitted.calcF (lf : LassoFitted d k N) (X : Matrix (Fin k) (Fin N) ℝ) : ℝ :=
  0.5 * normF2 (lf.Y - lf.D * X)

/-- `Lasso.lossF(X) = 0.5·‖Y - D·X‖_F² + lamb·‖X‖₁`. -/
def LassoFitted.lossF (lf : LassoFitted d k N) (X : Matrix (Fin k) (Fin N) ℝ) : ℝ :=
  lf.calcF X + lf.lamb * norm1 X

/-- The FISTA loop state: `x_old`, `y_old`, `t_old`. -/
structure FistaState (k N : ℕ) where
  x : Matrix (Fin k) (Fin N) ℝ
  y : Matrix (Fin k) (Fin N) ℝ
  t : ℝ

/-- One FISTA iteration: gradient/shrinkage step on `x`, momentum scalar `t`,
extrapolated point `y`. -/
def fistaStep (lf : LassoFitted d k N) (s : FistaState k N) : FistaState k N :=
  let xnew := shrinkage (s.y - (1 / lf.L) • lf.grad s.y) (lf.lamb / lf.L)
  let tnew := 0.5 * (1 + Real.sqrt (1 + 4 * s.t ^ 2))
  ⟨xnew, xnew + ((s.t - 1) / tnew) • (xnew - s.x), tnew⟩

/-- The iteration of `Fista.solve` once at least one pass is guaranteed: take
a step, stop as soon as `‖x_new - x_old‖₁ / x_new.size < tol`, and return the
most recently computed `x_new` when the budget runs out. -/
def fistaGo (lf : LassoFitted d k N) (tol : ℝ) :
    ℕ → FistaState k N → Matrix (Fin k) (Fin N) ℝ
  | 0, s => s.x
  | m + 1, s =>
    let s2 := fistaStep lf s
    if norm1 (s2.x - s.x) / (numel s2.x : ℝ) < tol then s2.x
    else fistaGo lf tol m s2

/-- The body of `Fista.solve` after `fit` has run: with `iterations = 0` the
Python code raises `UnboundLocalError` (`x_new` is first assigned inside the
loop), modelled as `none`; otherwise the loop starts from
`x_old = y_old = Xinit`, `t_old = 1`. -/
def fistaSolve (lf : LassoFitted d k N) (Xinit : Matrix (Fin k) (Fin N) ℝ)
    (iterations : ℕ) (tol : ℝ) : Option (Matrix (Fin k) (Fin N) ℝ) :=
  match iterations with
  | 0 => none
  | m + 1 => some (fistaGo lf tol (m + 1) ⟨Xinit, Xinit, 1⟩)

/-- `Lasso.solve(Y, Xinit, iterations, tol)`: first `fit(Y)`, then the FISTA
iteration with `Xinit` defaulting to the zero matrix (defaults in the source:
`Xinit = None`, `iterations = 100`, `tol = 1e-8`). -/
def Lasso.solve (l : Lasso d k) (Y : Matrix (Fin d) (Fin N) ℝ)
    (Xinit : Option (Matrix (Fin k) (Fin N) ℝ)) (iterations : ℕ) (tol : ℝ) :
    Option (Matrix (Fin k) (Fin N) ℝ) :=
  fistaSolve (l.fit Y) (Xinit.getD 0) iterations tol

/-! ## Loop characterization helpers -/

open scoped Classical in
/-- The common shape of the three `for ... break` loops of the module: take a
step, return early when the stop predicate relates the new state to the old,
and otherwise return the state reached when the budget runs out. -/
def loopBreak {σ α : Type*} (f : σ → σ) (P : σ → σ → Prop) (out : σ → α) :
    ℕ → σ → α
  | 0, s => out s
  | m + 1, s => if P (f s) s then out (f s) else loopBreak f P out m (f s)

/-- The stopping test of `ODL_updateD` after the `(j+1)`-st sweep from `D0`. -/
def odlStop (E : Matrix (Fin d) (Fin k) ℝ) (F : Matrix (Fin k) (Fin k) ℝ)
    (D0 : Matrix (Fin d) (Fin k) ℝ) (tol : ℝ) (j : ℕ) : Prop :=
  froNorm ((ODL_sweep E F)^[j + 1] D0 - (ODL_sweep E F)^[j] D0) / (numel D0 : ℝ) < tol

/-- Initial FISTA state built by `Fista.solve`: `x_old = y_old = Xinit`,
`t_old = 1`. -/
def fistaInit (Xinit : Matrix (Fin k) (Fin N) ℝ) : FistaState k N :=
  ⟨Xinit, Xinit, 1⟩

/-- The stopping test of `Fista.solve` after the `(j+1)`-st iteration. -/
def fistaStopAt (lf : LassoFitted d k N) (tol : ℝ)
    (Xinit : Matrix (Fin k) (Fin N) ℝ) (j : ℕ) : Prop :=
  norm1 (((fistaStep lf)^[j + 1] (fistaInit Xinit)).x -
      ((fistaStep lf)^[j] (fistaInit Xinit)).x) /
    (numel (((fistaStep lf)^[j + 1] (fistaInit Xinit)).x) : ℝ) < tol

/-- Initial ADMM state of `DLSI_updateD`: `Z_old = D`, `U = 0`. -/
def dlsiInit (D : Matrix (Fin d) (Fin k) ℝ) : DLSIState d k :=
  ⟨D, D, 0⟩

/-- The stopping test of `DLSI_updateD` after the `(j+1)`-st iteration:
`e1 = ‖D - Z_new‖_F² < 1e-8` and `e2 = rho·‖Z_new - Z_old‖_F² < 1e-8`. -/
def dlsiStopAt (E : Matrix (Fin d) (Fin k) ℝ) (F : Matrix (Fin k) (Fin k) ℝ)
    (A : Matrix (Fin n) (Fin d) ℝ) (lambda1 : ℝ)
    (D : Matrix (Fin d) (Fin k) ℝ) (j : ℕ) : Prop :=
  normF2 (((dlsiStep E F A lambda1)^[j + 1] (dlsiInit D)).D -
      ((dlsiStep E F A lambda1)^[j + 1] (dlsiInit D)).Zold) < (1e-8 : ℝ) ∧
    dlsiRho * normF2 (((dlsiStep E F A lambda1)^[j + 1] (dlsiInit D)).Zold -
      ((dlsiStep E F A lambda1)^[j] (dlsiInit D)).Zold) < (1e-8 : ℝ)

/-- The first `m` column updates of one sweep of `ODL_updateD`. -/
def ODL_sweepTo (E : Matrix (Fin d) (Fin k) ℝ) (F : Matrix (Fin k) (Fin k) ℝ)
    (m : ℕ) (D : Matrix (Fin d) (Fin k) ℝ) : Matrix (Fin d) (Fin k) ℝ :=
  ((List.finRange k).take m).foldl (ODL_updateCol E F) D

/-- Feasibility of the columns that `ODL_updateD` touches: every column whose
diagonal entry of `F` is nonzero lies in the unit ball. -/
def odlFeas (F : Matrix (Fin k) (Fin k) ℝ) (D : Matrix (Fin d) (Fin k) ℝ) : Prop :=
  ∀ j, F j j ≠ 0 → nsq (Mcol D j) ≤ 1

/-! ## Lemmas: loop characterization -/

/-- A `loopBreak` run stops at the first step whose stop test succeeds, or
when the budget is exhausted, and returns the state reached at that point. -/
theorem loopBreak_spec {σ α : Type*} (f : σ → σ) (P : σ → σ → Prop) (out : σ → α) :
    ∀ (m : ℕ) (s : σ), ∃ t, t ≤ m ∧ loopBreak f P out m s = out (f^[t] s) ∧
      (1 ≤ m → 1 ≤ t) ∧
      (∀ j, j + 1 < t → ¬ P (f^[j + 1] s) (f^[j] s)) ∧
      (t < m → ∃ j, t = j + 1 ∧ P (f^[j + 1] s) (f^[j] s)) := by
  intro m
  induction m with
  | zero =>
    intro s
    exact ⟨0, le_refl 0, by simp [loopBreak], by omega, fun j hj => by omega,
      fun h => absurd h (by omega)⟩
  | succ m ih =>
    intro s
    by_cases hP : P (f s) s
    · refine ⟨1, by omega, by simp [loopBreak, hP], fun _ => le_refl 1,
        fun j hj => by omega, fun _ => ⟨0, rfl, by simpa using hP⟩⟩
    · obtain ⟨t, ht1, ht2, _ht3, ht4, ht5⟩ := ih (f s)
      refine ⟨t + 1, by omega, ?_, fun _ => by omega, ?_, ?_⟩
      · rw [show loopBreak f P out (m + 1) s = loopBreak f P out m (f s) from
          by simp [loopBreak, hP], ht2, ← Function.iterate_succ_apply]
      · intro j hj
        cases j with
        | zero => simpa using hP
        | succ j2 => simpa [Function.iterate_succ_apply] using ht4 j2 (by omega)
      · intro hlt
        obtain ⟨j, hj1, hj2⟩ := ht5 (by omega)
        exact ⟨j + 1, by omega, by simpa [Function.iterate_succ_apply] using hj2⟩

/-- The outer loop of `ODL_updateD` is a `loopBreak` on sweeps. -/
theorem ODL_loop_eq (E : Matrix (Fin d) (Fin k) ℝ) (F : Matrix (Fin k) (Fin k) ℝ)
    (sz : ℕ) (tol : ℝ) : ∀ (m : ℕ) (D : Matrix (Fin d) (Fin k) ℝ),
    ODL_loop E F sz tol m D =
      loopBreak (ODL_sweep E F) (fun D2 D1 => froNorm (D2 - D1) / (sz : ℝ) < tol)
        id m D := by
  intro m
  induction m with
  | zero => intro D; rfl
  | succ m ih =>
    intro D
    by_cases h : froNorm (ODL_sweep E F D - D) / (sz : ℝ) < tol
    · simp [ODL_loop, loopBreak, h]
    · simp [ODL_loop, loopBreak, h, ih]

/-- The iteration of `Fista.solve` is a `loopBreak` on FISTA steps. -/
theorem fistaGo_eq (lf : LassoFitted d k N) (tol : ℝ) :
    ∀ (m : ℕ) (s : FistaState k N),
    fistaGo lf tol m s =
      loopBreak (fistaStep lf)
        (fun s2 s1 => norm1 (s2.x - s1.x) / (numel s2.x : ℝ) < tol)
        (fun s2 => s2.x) m s := by
  intro m
  induction m with
  | zero => intro s; rfl
  | succ m ih =>
    intro s
    by_cases h : norm1 ((fistaStep lf s).x - s.x) / (numel (fistaStep lf s).x : ℝ) < tol
    · simp [fistaGo, loopBreak, h]
    · simp [fistaGo, loopBreak, h, ih]

/-- The iteration of `DLSI_updateD` is a `loopBreak` on ADMM steps. -/
theorem DLSI_loop_eq (E : Matrix (Fin d) (Fin k) ℝ) (F : Matrix (Fin k) (Fin k) ℝ)
    (A : Matrix (Fin n) (Fin d) ℝ) (lambda1 : ℝ) :
    ∀ (m : ℕ) (s : DLSIState d k),
    DLSI_loop E F A lambda1 m s =
      loopBreak (dlsiStep E F A lambda1)
        (fun s2 s1 => normF2 (s2.D - s2.Zold) < (1e-8 : ℝ) ∧
          dlsiRho * normF2 (s2.Zold - s1.Zold) < (1e-8 : ℝ))
        (fun s2 => s2.D) m s := by
  intro m
  induction m with
  | zero => intro s; rfl
  | succ m ih =>
    intro s
    by_cases h : normF2 ((dlsiStep E F A lambda1 s).D - (dlsiStep E F A lambda1 s).Zold) < (1e-8 : ℝ) ∧
        dlsiRho * normF2 ((dlsiStep E F A lambda1 s).Zold - s.Zold) < (1e-8 : ℝ)
    · simp [DLSI_loop, loopBreak, h]
    · simp [DLSI_loop, loopBreak, h, ih]

/-! ## Lemmas: column vectors, norms, projection -/

theorem nsq_nonneg (v : Fin d → ℝ) : 0 ≤ nsq v :=
  Finset.sum_nonneg fun r _ => sq_nonneg _

theorem vecNorm2_nonneg (v : Fin d → ℝ) : 0 ≤ vecNorm2 v :=
  Real.sqrt_nonneg _

theorem vecNorm2_sq (v : Fin d → ℝ) : vecNorm2 v ^ 2 = nsq v :=
  Real.sq_sqrt (nsq_nonneg v)

theorem vecNorm2_le_one (v : Fin d → ℝ) (h : nsq v ≤ 1) : vecNorm2 v ≤ 1 := by
  have h2 := Real.sqrt_le_sqrt h
  simpa [vecNorm2] using h2

theorem dotc_le (u v : Fin d → ℝ) : dotc u v ≤ vecNorm2 u * vecNorm2 v := by
  have h2 : (dotc u v) ^ 2 ≤ nsq u * nsq v := by
    simpa [dotc, nsq] using Finset.sum_mul_sq_le_sq_mul_sq Finset.univ u v
  calc dotc u v ≤ |dotc u v| := le_abs_self _
    _ = Real.sqrt ((dotc u v) ^ 2) := (Real.sqrt_sq_eq_abs _).symm
    _ ≤ Real.sqrt (nsq u * nsq v) := Real.sqrt_le_sqrt h2
    _ = vecNorm2 u * vecNorm2 v := by
        rw [Real.sqrt_mul (nsq_nonneg u)]; simp [vecNorm2]

theorem nsq_sub_expand (x y : Fin d → ℝ) :
    nsq (x - y) = nsq x - 2 * dotc x y + nsq y := by
  have h : ∀ r, (x r - y r) ^ 2 = x r ^ 2 - 2 * (x r * y r) + y r ^ 2 :=
    fun r => by ring
  simp only [nsq, dotc, Pi.sub_apply]
  rw [Finset.sum_congr rfl fun r _ => h r, Finset.sum_add_distrib,
    Finset.sum_sub_distrib, Finset.mul_sum]

theorem nsq_smul (t : ℝ) (v : Fin d → ℝ) :
    nsq (fun r => t * v r) = t ^ 2 * nsq v := by
  simp [nsq, mul_pow, Finset.mul_sum]

theorem proj_nsq_le_one (a : Fin d → ℝ) :
    nsq (fun r => a r / max (vecNorm2 a) 1) ≤ 1 := by
  have hM : (1 : ℝ) ≤ max (vecNorm2 a) 1 := le_max_right _ _
  have h1 : nsq (fun r => a r / max (vecNorm2 a) 1) =
      nsq a / (max (vecNorm2 a) 1) ^ 2 := by
    simp [nsq, div_pow, Finset.sum_div]
  rw [h1, div_le_one (by positivity), ← vecNorm2_sq a]
  exact pow_le_pow_left (vecNorm2_nonneg a) (le_max_left _ _) 2

theorem proj_dist_le (a c : Fin d → ℝ) (hc : nsq c ≤ 1) :
    nsq ((fun r => a r / max (vecNorm2 a) 1) - a) ≤ nsq (a - c) := by
  rcases le_or_lt (vecNorm2 a) 1 with h | h
  · have hmax : max (vecNorm2 a) 1 = 1 := max_eq_right h
    have hz : ((fun r => a r / max (vecNorm2 a) 1) - a) = fun _ => (0 : ℝ) := by
      funext r; simp [hmax]
    rw [hz]
    have h0 : nsq (fun _ : Fin d => (0 : ℝ)) = 0 := by simp [nsq]
    rw [h0]
    exact nsq_nonneg _
  · have hmax : max (vecNorm2 a) 1 = vecNorm2 a := max_eq_left h.le
    have hnn : vecNorm2 a ≠ 0 := ne_of_gt (lt_trans one_pos h)
    have hfun : ((fun r => a r / max (vecNorm2 a) 1) - a) =
        fun r => (1 / vecNorm2 a - 1) * a r := by
      funext r; simp [hmax]; ring
    rw [hfun, nsq_smul]
    have hna : nsq a = vecNorm2 a ^ 2 := (vecNorm2_sq a).symm
    have hL : (1 / vecNorm2 a - 1) ^ 2 * nsq a = (1 - vecNorm2 a) ^ 2 := by
      rw [hna]; field_simp
    rw [hL]
    have hvc : vecNorm2 c ≤ 1 := vecNorm2_le_one c hc
    have hvc0 : 0 ≤ vecNorm2 c := vecNorm2_nonneg c
    have hcs : dotc a c ≤ vecNorm2 a * vecNorm2 c := dotc_le a c
    have hexp : nsq (a - c) = nsq a - 2 * dotc a c + nsq c := nsq_sub_expand a c
    have hnc : nsq c = vecNorm2 c ^ 2 := (vecNorm2_sq c).symm
    nlinarith [mul_nonneg (sub_nonneg.mpr hvc)
      (by nlinarith : (0 : ℝ) ≤ 2 * vecNorm2 a - vecNorm2 c - 1)]

/-! ## Lemmas: column updates of `ODL_updateD` -/

theorem ODL_updateCol_zero (E : Matrix (Fin d) (Fin k) ℝ)
    (F : Matrix (Fin k) (Fin k) ℝ) (D : Matrix (Fin d) (Fin k) ℝ) {i : Fin k}
    (h : F i i = 0) : ODL_updateCol E F D i = D := by
  simp [ODL_updateCol, h]

theorem ODL_updateCol_col_ne (E : Matrix (Fin d) (Fin k) ℝ)
    (F : Matrix (Fin k) (Fin k) ℝ) (D : Matrix (Fin d) (Fin k) ℝ) {i j : Fin k}
    (hij : j ≠ i) : Mcol (ODL_updateCol E F D j) i = Mcol D i := by
  unfold ODL_updateCol
  by_cases h : F j j = 0
  · simp [h]
  · funext r
    simp [h, Mcol, Matrix.updateColumn_apply, Ne.symm hij]

theorem ODL_updateCol_col_self (E : Matrix (Fin d) (Fin k) ℝ)
    (F : Matrix (Fin k) (Fin k) ℝ) (D : Matrix (Fin d) (Fin k) ℝ) {i : Fin k}
    (h : F i i ≠ 0) :
    Mcol (ODL_updateCol E F D i) i =
      fun r => odlA E F D i r / max (vecNorm2 (odlA E F D i)) 1 := by
  funext r
  simp [ODL_updateCol, h, Mcol, Matrix.updateColumn_apply]

theorem ODL_updateCol_self_nsq (E : Matrix (Fin d) (Fin k) ℝ)
    (F : Matrix (Fin k) (Fin k) ℝ) (D : Matrix (Fin d) (Fin k) ℝ) {i : Fin k}
    (h : F i i ≠ 0) : nsq (Mcol (ODL_updateCol E F D i) i) ≤ 1 := by
  rw [ODL_updateCol_col_self E F D h]
  exact proj_nsq_le_one _

theorem foldl_col_ne (E : Matrix (Fin d) (Fin k) ℝ)
    (F : Matrix (Fin k) (Fin k) ℝ) (i : Fin k) :
    ∀ (l : List (Fin k)) (D : Matrix (Fin d) (Fin k) ℝ), (∀ j ∈ l, j ≠ i) →
      Mcol (l.foldl (ODL_updateCol E F) D) i = Mcol D i := by
  intro l
  induction l with
  | nil => intro D _; rfl
  | cons j t ih =>
    intro D hl
    rw [List.foldl_cons, ih _ fun x hx => hl x (List.mem_cons_of_mem _ hx),
      ODL_updateCol_col_ne E F D (hl j (List.mem_cons_self j t))]

theorem foldl_col_nsq (E : Matrix (Fin d) (Fin k) ℝ)
    (F : Matrix (Fin k) (Fin k) ℝ) (i : Fin k) (hF : F i i ≠ 0) :
    ∀ (l : List (Fin k)) (D : Matrix (Fin d) (Fin k) ℝ), i ∈ l →
      nsq (Mcol (l.foldl (ODL_updateCol E F) D) i) ≤ 1 := by
  intro l
  induction l with
  | nil => intro D h; simp at h
  | cons j t ih =>
    intro D hmem
    rw [List.foldl_cons]
    by_cases hit : i ∈ t
    · exact ih _ hit
    · obtain rfl : j = i := by
        rcases List.mem_cons.mp hmem with h | h
        · exact h.symm
        · exact absurd h hit
      rw [foldl_col_ne E F j t _ fun x hx hxj => hit (hxj ▸ hx)]
      exact ODL_updateCol_self_nsq E F D hF

theorem foldl_col_zero (E : Matrix (Fin d) (Fin k) ℝ)
    (F : Matrix (Fin k) (Fin k) ℝ) (i : Fin k) (hF : F i i = 0) :
    ∀ (l : List (Fin k)) (D : Matrix (Fin d) (Fin k) ℝ),
      Mcol (l.foldl (ODL_updateCol E F) D) i = Mcol D i := by
  intro l
  induction l with
  | nil => intro D; rfl
  | cons j t ih =>
    intro D
    rw [List.foldl_cons, ih]
    by_cases hj : j = i
    · subst hj; rw [ODL_updateCol_zero E F D hF]
    · exact ODL_updateCol_col_ne E F D hj

theorem ODL_sweep_col_nsq (E : Matrix (Fin d) (Fin k) ℝ)
    (F : Matrix (Fin k) (Fin k) ℝ) (D : Matrix (Fin d) (Fin k) ℝ) (i : Fin k)
    (hF : F i i ≠ 0) : nsq (Mcol (ODL_sweep E F D) i) ≤ 1 :=
  foldl_col_nsq E F i hF _ D (List.mem_finRange i)

theorem ODL_sweep_feas (E : Matrix (Fin d) (Fin k) ℝ)
    (F : Matrix (Fin k) (Fin k) ℝ) (D : Matrix (Fin d) (Fin k) ℝ) :
    odlFeas F (ODL_sweep E F D) :=
  fun i hF => ODL_sweep_col_nsq E F D i hF

theorem ODL_sweep_col_zero (E : Matrix (Fin d) (Fin k) ℝ)
    (F : Matrix (Fin k) (Fin k) ℝ) (D : Matrix (Fin d) (Fin k) ℝ) (i : Fin k)
    (hF : F i i = 0) : Mcol (ODL_sweep E F D) i = Mcol D i :=
  foldl_col_zero E F i hF _ D

theorem ODL_iter_col_zero (E : Matrix (Fin d) (Fin k) ℝ)
    (F : Matrix (Fin k) (Fin k) ℝ) (i : Fin k) (hF : F i i = 0) :
    ∀ (m : ℕ) (D : Matrix (Fin d) (Fin k) ℝ),
      Mcol ((ODL_sweep E F)^[m] D) i = Mcol D i := by
  intro m
  induction m with
  | zero => intro D; rfl
  | succ m ih =>
    intro D
    rw [Function.iterate_succ_apply, ih, ODL_sweep_col_zero E F D i hF]

theorem ODL_iter_col_nsq (E : Matrix (Fin d) (Fin k) ℝ)
    (F : Matrix (Fin k) (Fin k) ℝ) (D : Matrix (Fin d) (Fin k) ℝ) (i : Fin k)
    (hF : F i i ≠ 0) (m : ℕ) (hm : 1 ≤ m) :
    nsq (Mcol ((ODL_sweep E F)^[m] D) i) ≤ 1 := by
  obtain ⟨t, rfl⟩ : ∃ t, m = t + 1 := ⟨m - 1, by omega⟩
  rw [Function.iterate_succ_apply']
  exact ODL_sweep_col_nsq E F _ i hF

/-! ## Lemmas: characterization of the `ODL_updateD` outer loop -/

theorem ODL_updateD_exists_iter (D E : Matrix (Fin d) (Fin k) ℝ)
    (F : Matrix (Fin k) (Fin k) ℝ) (iters : ℕ) (tol : ℝ) :
    ∃ m, m ≤ iters ∧ ODL_updateD D E F iters tol = (ODL_sweep E F)^[m] D ∧
      (1 ≤ iters → 1 ≤ m) ∧
      (∀ j, j + 1 < m → ¬ odlStop E F D tol j) ∧
      (m < iters → ∃ j, m = j + 1 ∧ odlStop E F D tol j) := by
  obtain ⟨m, h1, h2, h3, h4, h5⟩ :=
    loopBreak_spec (ODL_sweep E F)
      (fun D2 D1 => froNorm (D2 - D1) / ((numel D : ℕ) : ℝ) < tol) id iters D
  refine ⟨m, h1, ?_, h3, h4, h5⟩
  rw [ODL_updateD, ODL_loop_eq]
  exact h2

theorem ODL_updateD_col_nsq (D E : Matrix (Fin d) (Fin k) ℝ)
    (F : Matrix (Fin k) (Fin k) ℝ) (iters : ℕ) (tol : ℝ) (hit : 1 ≤ iters)
    (i : Fin k) (hF : F i i ≠ 0) :
    nsq (Mcol (ODL_updateD D E F iters tol) i) ≤ 1 := by
  obtain ⟨m, _, heq, h1m, _, _⟩ := ODL_updateD_exists_iter D E F iters tol
  rw [heq]
  exact ODL_iter_col_nsq E F D i hF m (h1m hit)

/-! ## Lemmas: the quadratic objective of `ODL_updateD` -/

theorem dotc_comm (u v : Fin d → ℝ) : dotc u v = dotc v u := by
  simp [dotc, mul_comm]

theorem dotc_zero_left (v : Fin d → ℝ) : dotc (0 : Fin d → ℝ) v = 0 := by
  simp [dotc]

theorem dotc_zero_right (v : Fin d → ℝ) : dotc v (0 : Fin d → ℝ) = 0 := by
  simp [dotc]

theorem dotc_add_right (x y z : Fin d → ℝ) :
    dotc x (y + z) = dotc x y + dotc x z := by
  simp [dotc, mul_add, Finset.sum_add_distrib]

theorem dotc_sub_left (x y z : Fin d → ℝ) :
    dotc (x - y) z = dotc x z - dotc y z := by
  simp [dotc, sub_mul, Finset.sum_sub_distrib]

theorem dotc_expand (x u y v : Fin d → ℝ) :
    dotc (x + u) (y + v) = dotc x y + dotc x v + dotc u y + dotc u v := by
  have h : ∀ r, (x r + u r) * (y r + v r) =
      x r * y r + x r * v r + u r * y r + u r * v r := fun r => by ring
  simp only [dotc, Pi.add_apply]
  rw [Finset.sum_congr rfl fun r _ => h r, Finset.sum_add_distrib,
    Finset.sum_add_distrib, Finset.sum_add_distrib]

theorem nsq_eq_dotc (v : Fin d → ℝ) : nsq v = dotc v v := by
  simp [nsq, dotc, sq]

theorem dotc_mulVec (D : Matrix (Fin d) (Fin k) ℝ) (v : Fin k → ℝ)
    (u : Fin d → ℝ) :
    dotc (Matrix.mulVec D v) u = ∑ q, v q * dotc (Mcol D q) u := by
  simp only [dotc, Matrix.mulVec, Matrix.dotProduct, Mcol, Finset.sum_mul,
    Finset.mul_sum]
  rw [Finset.sum_comm]
  exact Finset.sum_congr rfl fun q _ => Finset.sum_congr rfl fun r _ => by ring

theorem trace_E_Dt (E D : Matrix (Fin d) (Fin k) ℝ) :
    (E * D.transpose).trace = ∑ j, dotc (Mcol E j) (Mcol D j) := by
  simp only [Matrix.trace, Matrix.diag, Matrix.mul_apply, Matrix.transpose_apply,
    dotc, Mcol]
  exact Finset.sum_comm

theorem trace_DFDt (D : Matrix (Fin d) (Fin k) ℝ) (F : Matrix (Fin k) (Fin k) ℝ) :
    (D * F * D.transpose).trace = ∑ p, ∑ q, F p q * dotc (Mcol D p) (Mcol D q) := by
  have h1 : ∀ r, (∑ q, (∑ p, D r p * F p q) * D r q) =
      ∑ q, ∑ p, F p q * (D r p * D r q) := fun r =>
    Finset.sum_congr rfl fun q _ => by
      rw [Finset.sum_mul]
      exact Finset.sum_congr rfl fun p _ => by ring
  calc (D * F * D.transpose).trace
      = ∑ r, ∑ q, ∑ p, F p q * (D r p * D r q) := by
        simp only [Matrix.trace, Matrix.diag, Matrix.mul_apply,
          Matrix.transpose_apply]
        exact Finset.sum_congr rfl fun r _ => h1 r
    _ = ∑ q, ∑ r, ∑ p, F p q * (D r p * D r q) := Finset.sum_comm
    _ = ∑ q, ∑ p, ∑ r, F p q * (D r p * D r q) :=
        Finset.sum_congr rfl fun q _ => Finset.sum_comm
    _ = ∑ p, ∑ q, ∑ r, F p q * (D r p * D r q) := Finset.sum_comm
    _ = ∑ p, ∑ q, F p q * dotc (Mcol D p) (Mcol D q) :=
        Finset.sum_congr rfl fun p _ => Finset.sum_congr rfl fun q _ => by
          simp [dotc, Mcol, Finset.mul_sum]

theorem costODL_sum (E : Matrix (Fin d) (Fin k) ℝ) (F : Matrix (Fin k) (Fin k) ℝ)
    (D : Matrix (Fin d) (Fin k) ℝ) :
    costODL E F D = (∑ p, ∑ q, F p q * dotc (Mcol D p) (Mcol D q))
      - 2 * ∑ j, dotc (Mcol E j) (Mcol D j) := by
  rw [costODL, trace_E_Dt, trace_DFDt]; ring

theorem Mcol_updateColumn (D : Matrix (Fin d) (Fin k) ℝ) (i : Fin k)
    (c : Fin d → ℝ) (p : Fin k) :
    Mcol (D.updateColumn i c) p =
      Mcol D p + (if p = i then c - Mcol D i else 0) := by
  funext r
  by_cases hp : p = i
  · subst hp
    simp only [Mcol, Matrix.updateColumn_self, eq_self_iff_true, ite_true,
      Pi.add_apply, Pi.sub_apply]
    ring
  · simp [Mcol, Matrix.updateColumn_ne hp, hp]

theorem costODL_updateColumn (E : Matrix (Fin d) (Fin k) ℝ)
    (F : Matrix (Fin k) (Fin k) ℝ) (D : Matrix (Fin d) (Fin k) ℝ)
    (hsym : ∀ p q, F p q = F q p) (i : Fin k) (c : Fin d → ℝ) :
    costODL E F (D.updateColumn i c) = costODL E F D
      + (F i i * nsq (c - Mcol D i)
        + 2 * dotc (Matrix.mulVec D (Mcol F i)) (c - Mcol D i)
        - 2 * dotc (Mcol E i) (c - Mcol D i)) := by
  have hE : ∀ j, dotc (Mcol E j) (Mcol (D.updateColumn i c) j)
      = dotc (Mcol E j) (Mcol D j)
        + (if j = i then dotc (Mcol E i) (c - Mcol D i) else 0) := by
    intro j
    rw [Mcol_updateColumn, dotc_add_right]
    by_cases hj : j = i
    · subst hj; simp
    · simp [hj, dotc_zero_right]
  have hEsum : ∑ j, dotc (Mcol E j) (Mcol (D.updateColumn i c) j)
      = (∑ j, dotc (Mcol E j) (Mcol D j)) + dotc (Mcol E i) (c - Mcol D i) := by
    rw [Finset.sum_congr rfl fun j _ => hE j, Finset.sum_add_distrib,
      Finset.sum_ite_eq' Finset.univ i _]
    simp
  have hF : ∀ p q, F p q * dotc (Mcol (D.updateColumn i c) p)
        (Mcol (D.updateColumn i c) q)
      = F p q * dotc (Mcol D p) (Mcol D q)
        + F p q * dotc (Mcol D p) (if q = i then c - Mcol D i else 0)
        + F p q * dotc (if p = i then c - Mcol D i else 0) (Mcol D q)
        + F p q * dotc (if p = i then c - Mcol D i else 0)
            (if q = i then c - Mcol D i else 0) := by
    intro p q
    rw [Mcol_updateColumn, Mcol_updateColumn, dotc_expand]
    ring
  have hT1 : ∑ p, ∑ q, F p q * dotc (Mcol D p) (if q = i then c - Mcol D i else 0)
      = ∑ p, F p i * dotc (Mcol D p) (c - Mcol D i) :=
    Finset.sum_congr rfl fun p _ => by
      rw [Finset.sum_eq_single i (fun b _ hb => by simp [hb, dotc_zero_right])
        fun h => absurd (Finset.mem_univ i) h]
      simp
  have hT2 : ∑ p, ∑ q, F p q * dotc (if p = i then c - Mcol D i else 0) (Mcol D q)
      = ∑ q, F i q * dotc (c - Mcol D i) (Mcol D q) := by
    rw [Finset.sum_eq_single i (fun b _ hb => by simp [hb, dotc_zero_left])
      fun h => absurd (Finset.mem_univ i) h]
    simp
  have hT3 : ∑ p, ∑ q, F p q * dotc (if p = i then c - Mcol D i else 0)
        (if q = i then c - Mcol D i else 0)
      = F i i * dotc (c - Mcol D i) (c - Mcol D i) := by
    rw [Finset.sum_eq_single i (fun b _ hb => by simp [hb, dotc_zero_left])
      fun h => absurd (Finset.mem_univ i) h]
    rw [Finset.sum_eq_single i (fun b _ hb => by simp [hb, dotc_zero_right])
      fun h => absurd (Finset.mem_univ i) h]
    simp
  have hAB : ∑ q, F i q * dotc (c - Mcol D i) (Mcol D q)
      = ∑ p, F p i * dotc (Mcol D p) (c - Mcol D i) :=
    Finset.sum_congr rfl fun q _ => by rw [hsym i q, dotc_comm]
  have hMV : dotc (Matrix.mulVec D (Mcol F i)) (c - Mcol D i)
      = ∑ p, F p i * dotc (Mcol D p) (c - Mcol D i) :=
    dotc_mulVec D (Mcol F i) (c - Mcol D i)
  rw [costODL_sum, costODL_sum,
    Finset.sum_congr rfl fun p (_ : p ∈ Finset.univ) =>
      Finset.sum_congr rfl fun q (_ : q ∈ Finset.univ) => hF p q]
  simp only [Finset.sum_add_distrib]
  rw [hT1, hT2, hT3, hEsum, hAB, hMV, nsq_eq_dotc]
  ring

theorem dotc_smul_fun (t : ℝ) (x v : Fin d → ℝ) :
    dotc (fun r => t * x r) v = t * dotc x v := by
  simp [dotc, Finset.mul_sum, mul_assoc]

theorem costODL_updateColumn_proj (E : Matrix (Fin d) (Fin k) ℝ)
    (F : Matrix (Fin k) (Fin k) ℝ) (D : Matrix (Fin d) (Fin k) ℝ)
    (hsym : ∀ p q, F p q = F q p) (i : Fin k) (hFii : F i i ≠ 0)
    (c : Fin d → ℝ) :
    costODL E F (D.updateColumn i c) = costODL E F D
      + F i i * (nsq (c - odlA E F D i) - nsq (odlA E F D i - Mcol D i)) := by
  have ha : (Mcol E i - fun r => Matrix.mulVec D (Mcol F i) r)
      = fun r => F i i * ((odlA E F D i - Mcol D i) r) := by
    funext r
    simp only [Pi.sub_apply, Mcol, odlA]
    field_simp
    ring
  have hw : dotc (Mcol E i) (c - Mcol D i)
        - dotc (Matrix.mulVec D (Mcol F i)) (c - Mcol D i)
      = F i i * dotc (odlA E F D i - Mcol D i) (c - Mcol D i) := by
    rw [← dotc_sub_left]
    have h2 : (Mcol E i - Matrix.mulVec D (Mcol F i))
        = fun r => F i i * ((odlA E F D i - Mcol D i) r) := ha
    rw [h2, dotc_smul_fun]
  have hsplit : c - odlA E F D i
      = (c - Mcol D i) - (odlA E F D i - Mcol D i) := by
    funext r; simp only [Pi.sub_apply]; ring
  have hexp : nsq (c - odlA E F D i)
      = nsq (c - Mcol D i)
        - 2 * dotc (c - Mcol D i) (odlA E F D i - Mcol D i)
        + nsq (odlA E F D i - Mcol D i) := by
    rw [hsplit, nsq_sub_expand]
  have hcomm : dotc (c - Mcol D i) (odlA E F D i - Mcol D i)
      = dotc (odlA E F D i - Mcol D i) (c - Mcol D i) := dotc_comm _ _
  rw [costODL_updateColumn E F D hsym i c, hexp]
  linear_combination (-2 : ℝ) * hw + (2 * F i i) * hcomm

theorem ODL_updateCol_cost_le (E : Matrix (Fin d) (Fin k) ℝ)
    (F : Matrix (Fin k) (Fin k) ℝ) (D : Matrix (Fin d) (Fin k) ℝ)
    (hsym : ∀ p q, F p q = F q p) (i : Fin k) (hFnn : 0 ≤ F i i)
    (hfeas : F i i ≠ 0 → nsq (Mcol D i) ≤ 1) :
    costODL E F (ODL_updateCol E F D i) ≤ costODL E F D := by
  by_cases h0 : F i i = 0
  · rw [ODL_updateCol_zero E F D h0]
  · have hstep : ODL_updateCol E F D i = D.updateColumn i
        fun r => odlA E F D i r / max (vecNorm2 (odlA E F D i)) 1 := by
      simp [ODL_updateCol, h0]
    rw [hstep, costODL_updateColumn_proj E F D hsym i h0 _]
    have hd := proj_dist_le (odlA E F D i) (Mcol D i) (hfeas h0)
    have hsub : nsq ((fun r => odlA E F D i r / max (vecNorm2 (odlA E F D i)) 1)
          - odlA E F D i)
        - nsq (odlA E F D i - Mcol D i) ≤ 0 := sub_nonpos.mpr hd
    nlinarith [mul_nonneg hFnn (neg_nonneg.mpr hsub)]

theorem foldl_cost_le (E : Matrix (Fin d) (Fin k) ℝ)
    (F : Matrix (Fin k) (Fin k) ℝ) (hsym : ∀ p q, F p q = F q p)
    (hdiag : ∀ j, 0 ≤ F j j) :
    ∀ (l : List (Fin k)) (D : Matrix (Fin d) (Fin k) ℝ), odlFeas F D →
      costODL E F (l.foldl (ODL_updateCol E F) D) ≤ costODL E F D ∧
        odlFeas F (l.foldl (ODL_updateCol E F) D) := by
  intro l
  induction l with
  | nil => intro D hfeas; exact ⟨le_refl _, hfeas⟩
  | cons j t ih =>
    intro D hfeas
    have hstep_cost : costODL E F (ODL_updateCol E F D j) ≤ costODL E F D :=
      ODL_updateCol_cost_le E F D hsym j (hdiag j) fun h => hfeas j h
    have hstep_feas : odlFeas F (ODL_updateCol E F D j) := by
      intro i hFi
      by_cases hij : i = j
      · subst hij; exact ODL_updateCol_self_nsq E F D hFi
      · rw [ODL_updateCol_col_ne E F D (Ne.symm hij)]
        exact hfeas i hFi
    obtain ⟨ih1, ih2⟩ := ih _ hstep_feas
    exact ⟨le_trans (by simpa using ih1) hstep_cost, by simpa using ih2⟩

theorem ODL_sweep_cost_le (E : Matrix (Fin d) (Fin k) ℝ)
    (F : Matrix (Fin k) (Fin k) ℝ) (D : Matrix (Fin d) (Fin k) ℝ)
    (hsym : ∀ p q, F p q = F q p) (hdiag : ∀ j, 0 ≤ F j j)
    (hfeas : odlFeas F D) : costODL E F (ODL_sweep E F D) ≤ costODL E F D :=
  (foldl_cost_le E F hsym hdiag (List.finRange k) D hfeas).1

theorem PosSemidef.symm_entries (F : Matrix (Fin k) (Fin k) ℝ)
    (h : F.PosSemidef) (p q : Fin k) : F p q = F q p := by
  have h2 := congrFun (congrFun h.1 p) q
  simpa [Matrix.conjTranspose_apply] using h2.symm

theorem PosSemidef.diag_nonneg_entries (F : Matrix (Fin k) (Fin k) ℝ)
    (h : F.PosSemidef) (i : Fin k) : 0 ≤ F i i := by
  have h2 := h.2 (Pi.single i 1)
  simpa [Matrix.dotProduct, Matrix.mulVec, Pi.single_apply, Finset.sum_ite_eq,
    Finset.mul_sum] using h2

theorem ODL_iter_feas (E : Matrix (Fin d) (Fin k) ℝ)
    (F : Matrix (Fin k) (Fin k) ℝ) (D : Matrix (Fin d) (Fin k) ℝ)
    (hfeas : odlFeas F D) (m : ℕ) : odlFeas F ((ODL_sweep E F)^[m] D) := by
  cases m with
  | zero => exact hfeas
  | succ t =>
    rw [Function.iterate_succ_apply']
    exact ODL_sweep_feas E F _

/-! ## Lemmas: `DLSI_updateD` and `Fista.solve` loop characterizations -/

theorem dlsiStep_D_def (E : Matrix (Fin d) (Fin k) ℝ)
    (F : Matrix (Fin k) (Fin k) ℝ) (A : Matrix (Fin n) (Fin d) ℝ)
    (lambda1 : ℝ) (s : DLSIState d k) :
    (dlsiStep E F A lambda1 s).D =
      ODL_updateD s.D (E + (dlsiRho / 2) • (s.Zold - s.U))
        (F + (dlsiRho / 2) • (1 : Matrix (Fin k) (Fin k) ℝ)) 100 (1e-8 : ℝ) :=
  rfl

theorem dlsiF2_diag_ne (F : Matrix (Fin k) (Fin k) ℝ) (i : Fin k)
    (h : 0 ≤ F i i) :
    (F + (dlsiRho / 2) • (1 : Matrix (Fin k) (Fin k) ℝ)) i i ≠ 0 := by
  have heq : (F + (dlsiRho / 2) • (1 : Matrix (Fin k) (Fin k) ℝ)) i i
      = F i i + dlsiRho / 2 := by
    simp [Matrix.add_apply, Matrix.smul_apply, Matrix.one_apply_eq]
  rw [heq, dlsiRho]
  nlinarith

theorem dlsiIter_D_nsq (E : Matrix (Fin d) (Fin k) ℝ)
    (F : Matrix (Fin k) (Fin k) ℝ) (A : Matrix (Fin n) (Fin d) ℝ)
    (lambda1 : ℝ) (s : DLSIState d k) (m : ℕ) (hm : 1 ≤ m) (i : Fin k)
    (hdiag : 0 ≤ F i i) :
    nsq (Mcol ((dlsiStep E F A lambda1)^[m] s).D i) ≤ 1 := by
  obtain ⟨t, rfl⟩ : ∃ t, m = t + 1 := ⟨m - 1, by omega⟩
  rw [Function.iterate_succ_apply', dlsiStep_D_def]
  exact ODL_updateD_col_nsq _ _ _ 100 _ (by norm_num) i (dlsiF2_diag_ne F i hdiag)

theorem DLSI_updateD_exists_iter (D E : Matrix (Fin d) (Fin k) ℝ)
    (F : Matrix (Fin k) (Fin k) ℝ) (A : Matrix (Fin n) (Fin d) ℝ)
    (lambda1 : ℝ) (iters : ℕ) :
    ∃ m, m ≤ iters ∧
      DLSI_updateD D E F A lambda1 iters =
        ((dlsiStep E F A lambda1)^[m] (dlsiInit D)).D ∧
      (1 ≤ iters → 1 ≤ m) ∧
      (∀ j, j + 1 < m → ¬ dlsiStopAt E F A lambda1 D j) ∧
      (m < iters → ∃ j, m = j + 1 ∧ dlsiStopAt E F A lambda1 D j) := by
  obtain ⟨m, h1, h2, h3, h4, h5⟩ :=
    loopBreak_spec (dlsiStep E F A lambda1)
      (fun s2 s1 => normF2 (s2.D - s2.Zold) < (1e-8 : ℝ) ∧
        dlsiRho * normF2 (s2.Zold - s1.Zold) < (1e-8 : ℝ))
      (fun s2 => s2.D) iters (dlsiInit D)
  refine ⟨m, h1, ?_, h3, h4, h5⟩
  rw [DLSI_updateD, DLSI_loop_eq]
  exact h2

theorem fistaSolve_exists_iter (lf : LassoFitted d k N)
    (X0 : Matrix (Fin k) (Fin N) ℝ) (iters : ℕ) (tol : ℝ) (hit : 1 ≤ iters) :
    ∃ m, 1 ≤ m ∧ m ≤ iters ∧
      fistaSolve lf X0 iters tol =
        some (((fistaStep lf)^[m] (fistaInit X0)).x) ∧
      (∀ j, j + 1 < m → ¬ fistaStopAt lf tol X0 j) ∧
      (m < iters → ∃ j, m = j + 1 ∧ fistaStopAt lf tol X0 j) := by
  obtain ⟨t, rfl⟩ : ∃ t, iters = t + 1 := ⟨iters - 1, by omega⟩
  obtain ⟨m, h1, h2, h3, h4, h5⟩ :=
    loopBreak_spec (fistaStep lf)
      (fun s2 s1 => norm1 (s2.x - s1.x) / (numel s2.x : ℝ) < tol)
      (fun s2 => s2.x) (t + 1) (fistaInit X0)
  refine ⟨m, h3 (by omega), h1, ?_, h4, h5⟩
  rw [show fistaSolve lf X0 (t + 1) tol =
    some (fistaGo lf tol (t + 1) (fistaInit X0)) from rfl, fistaGo_eq, h2]

/-! ## Lemmas: the order of the column sweep -/

theorem ODL_sweepTo_succ (E : Matrix (Fin d) (Fin k) ℝ)
    (F : Matrix (Fin k) (Fin k) ℝ) (D : Matrix (Fin d) (Fin k) ℝ) (m : Fin k) :
    ODL_sweepTo E F ((m : ℕ) + 1) D =
      ODL_updateCol E F (ODL_sweepTo E F (m : ℕ) D) m := by
  unfold ODL_sweepTo
  have hlen : (m : ℕ) < (List.finRange k).length := by
    simpa using m.2
  have hget : (List.finRange k)[(m : ℕ)]? = some m := by
    rw [List.getElem?_eq_getElem hlen]
    simp [Fin.ext_iff]
  rw [List.take_succ, hget]
  simp

theorem ODL_sweep_eq_sweepTo (E : Matrix (Fin d) (Fin k) ℝ)
    (F : Matrix (Fin k) (Fin k) ℝ) (D : Matrix (Fin d) (Fin k) ℝ) :
    ODL_sweep E F D = ODL_sweepTo E F k D := by
  unfold ODL_sweep ODL_sweepTo
  rw [List.take_of_length_le (by simp)]

/-! ## Lemmas: largest eigenvalue for the Lasso Lipschitz constant -/

theorem lassoL_ge (D : Matrix (Fin d) (Fin k) ℝ) (i : Fin k) :
    (DtD_isHermitian D).eigenvalues i ≤ lassoL D :=
  le_ciSup (Set.Finite.bddAbove (Set.finite_range _)) i

theorem lassoL_attained (D : Matrix (Fin d) (Fin k) ℝ) (hk : 0 < k) :
    ∃ i, lassoL D = (DtD_isHermitian D).eigenvalues i := by
  haveI : Nonempty (Fin k) := ⟨⟨0, hk⟩⟩
  obtain ⟨i0, hi0⟩ := Finite.exists_max ((DtD_isHermitian D).eigenvalues)
  exact ⟨i0, le_antisymm (ciSup_le hi0)
    (le_ciSup (Set.Finite.bddAbove (Set.finite_range _)) i0)⟩

/-! ## Lemmas: the low-rank-update identity behind `B1` -/

theorem dlsi_push_through (A : Matrix (Fin n) (Fin d) ℝ) (lambda1 : ℝ)
    (h : IsUnit (1 + A * ((2 * lambda1 / dlsiRho) • A.transpose)).det)
    (V : Matrix (Fin d) (Fin k) ℝ) :
    dlsiRho • (V - dlsiB1 A lambda1 * (A * V)) =
      ((2 * lambda1) • (A.transpose * A) +
        dlsiRho • (1 : Matrix (Fin d) (Fin d) ℝ))⁻¹ * (dlsiRho • V) := by
  set X : Matrix (Fin d) (Fin n) ℝ := (2 * lambda1 / dlsiRho) • A.transpose with hX
  have hMM : (1 + A * X) * (1 + A * X)⁻¹ = 1 := Matrix.mul_nonsing_inv _ h
  have hXY : X * A = (2 * lambda1) • (A.transpose * A) := by
    rw [hX, Matrix.smul_mul]
    congr 1
    simp [dlsiRho]
  have hN : (2 * lambda1) • (A.transpose * A) +
      dlsiRho • (1 : Matrix (Fin d) (Fin d) ℝ) = 1 + X * A := by
    rw [hXY, dlsiRho, one_smul, add_comm]
  have hBA : (1 + A * X)⁻¹ * A + A * (X * ((1 + A * X)⁻¹ * A)) = A := by
    have h3 : (1 + A * X)⁻¹ * A + A * (X * ((1 + A * X)⁻¹ * A))
        = (1 + A * X) * ((1 + A * X)⁻¹ * A) := by
      rw [Matrix.add_mul, Matrix.one_mul, Matrix.mul_assoc]
    rw [h3, ← Matrix.mul_assoc, hMM, Matrix.one_mul]
  have hfact : X * ((1 + A * X)⁻¹ * A) + X * (A * (X * ((1 + A * X)⁻¹ * A)))
      = X * A := by
    rw [← Matrix.mul_add, hBA]
  have hR : (1 + X * A) * (1 - X * ((1 + A * X)⁻¹ * A)) = 1 := by
    calc (1 + X * A) * (1 - X * ((1 + A * X)⁻¹ * A))
        = 1 - X * ((1 + A * X)⁻¹ * A) +
            (X * A - X * (A * (X * ((1 + A * X)⁻¹ * A)))) := by
          rw [Matrix.add_mul, Matrix.one_mul, Matrix.mul_sub, Matrix.mul_one,
            Matrix.mul_assoc]
      _ = 1 + (X * A - (X * ((1 + A * X)⁻¹ * A) +
            X * (A * (X * ((1 + A * X)⁻¹ * A))))) := by abel
      _ = 1 := by rw [hfact]; abel
  have hinv : (1 + X * A)⁻¹ = 1 - X * ((1 + A * X)⁻¹ * A) :=
    Matrix.inv_eq_right_inv hR
  rw [hN, hinv]
  have hB1 : dlsiB1 A lambda1 = X * (1 + A * X)⁻¹ := rfl
  rw [hB1]
  simp [dlsiRho, Matrix.sub_mul, Matrix.mul_assoc]

/-! ## Lemmas: concrete 1×1 evaluations used for counterexamples -/

theorem lit_one_apply (x : ℝ) (i j : Fin 1) : !![x] i j = x := by
  fin_cases i; fin_cases j; rfl

theorem sqrt_four : Real.sqrt 4 = 2 := by
  rw [show (4 : ℝ) = 2 ^ 2 by norm_num, Real.sqrt_sq (by norm_num : (0 : ℝ) ≤ 2)]

theorem finRange_one : List.finRange 1 = [0] := by decide

theorem ODL_sweep_fin_one (E F D : Matrix (Fin 1) (Fin 1) ℝ) :
    ODL_sweep E F D = ODL_updateCol E F D 0 := by
  rw [ODL_sweep, finRange_one]
  rfl

theorem ODL_updateD_one_iter (D E : Matrix (Fin d) (Fin k) ℝ)
    (F : Matrix (Fin k) (Fin k) ℝ) (tol : ℝ) :
    ODL_updateD D E F 1 tol = ODL_sweep E F D := by
  rw [ODL_updateD]
  simp [ODL_loop]

theorem costODL_fin_one (E F D : Matrix (Fin 1) (Fin 1) ℝ) :
    costODL E F D = -2 * (E 0 0 * D 0 0) + D 0 0 * F 0 0 * D 0 0 := by
  simp only [costODL, Matrix.trace_fin_one, Matrix.mul_apply,
    Fin.sum_univ_one, Matrix.transpose_apply]

theorem c1_updateD_eval :
    ODL_updateD !![(2 : ℝ)] !![(0 : ℝ)] (0 : Matrix (Fin 1) (Fin 1) ℝ) 1
      (1e-8 : ℝ) = !![(2 : ℝ)] := by
  rw [ODL_updateD_one_iter, ODL_sweep_fin_one, ODL_updateCol_zero]
  simp

theorem vecNorm2_col_two : vecNorm2 (Mcol !![(2 : ℝ)] 0) = 2 := by
  have h : Mcol !![(2 : ℝ)] 0 = fun _ : Fin 1 => (2 : ℝ) := by
    funext r; simp only [Mcol]; rw [lit_one_apply]
  rw [h, vecNorm2, nsq]
  rw [Fin.sum_univ_one]
  norm_num [sqrt_four]

theorem c6_odlA_eval : odlA !![(2 : ℝ)] !![(1 : ℝ)] !![(2 : ℝ)] 0
    = fun _ : Fin 1 => (2 : ℝ) := by
  funext r
  simp [odlA, Mcol, Matrix.mulVec, Matrix.dotProduct, Fin.sum_univ_one,
    lit_one_apply]

theorem c6_vecNorm2_eval :
    vecNorm2 (odlA !![(2 : ℝ)] !![(1 : ℝ)] !![(2 : ℝ)] 0) = 2 := by
  rw [c6_odlA_eval, vecNorm2, nsq, Fin.sum_univ_one]
  norm_num [sqrt_four]

theorem c6_sweep_eval :
    ODL_sweep !![(2 : ℝ)] !![(1 : ℝ)] !![(2 : ℝ)] = !![(1 : ℝ)] := by
  rw [ODL_sweep_fin_one]
  have hne : (!![(1 : ℝ)] : Matrix (Fin 1) (Fin 1) ℝ) 0 0 ≠ 0 := by
    rw [lit_one_apply]; norm_num
  rw [ODL_updateCol, if_neg hne]
  ext i j
  obtain rfl : i = 0 := Subsingleton.elim i 0
  obtain rfl : j = 0 := Subsingleton.elim j 0
  rw [Matrix.updateColumn_self, c6_vecNorm2_eval, c6_odlA_eval, lit_one_apply]
  norm_num

theorem c6_psd : Matrix.PosSemidef (!![(1 : ℝ)]) := by
  have h : (!![(1 : ℝ)] : Matrix (Fin 1) (Fin 1) ℝ) = 1 := by
    ext i j
    obtain rfl : i = 0 := Subsingleton.elim i 0
    obtain rfl : j = 0 := Subsingleton.elim j 0
    rw [lit_one_apply, Matrix.one_apply_eq]
  rw [h]
  exact Matrix.PosSemidef.one

/-! ## Claim theorems -/

/-- C1 (counterexample): as stated the claim is false.  With `F = 0` positive
semidefinite and initial dictionary `D = [[2]]`, `ODL_updateD` skips the zero
diagonal column and returns `D` unchanged, whose column norm `2` exceeds
`1 + 1e-6`. -/
theorem C1_counterexample :
    Matrix.PosSemidef (0 : Matrix (Fin 1) (Fin 1) ℝ) ∧
    ODL_updateD !![(2 : ℝ)] !![(0 : ℝ)] (0 : Matrix (Fin 1) (Fin 1) ℝ) 1
      (1e-8 : ℝ) = !![(2 : ℝ)] ∧
    ¬ (vecNorm2 (Mcol (ODL_updateD !![(2 : ℝ)] !![(0 : ℝ)]
        (0 : Matrix (Fin 1) (Fin 1) ℝ) 1 (1e-8 : ℝ)) 0) ≤ 1 + 1e-6) := by
  refine ⟨Matrix.PosSemidef.zero, c1_updateD_eval, ?_⟩
  rw [c1_updateD_eval, vecNorm2_col_two]
  norm_num

/-- C1 (amended): with at least one iteration, every column `i` with
`F[i,i] ≠ 0` of the matrix returned by `ODL_updateD` has L2 norm at most `1`,
and every column of the matrix returned by `DLSI_updateD` with `F[i,i] ≥ 0`
(as for positive semidefinite `F`) has L2 norm at most `1`, because its inner
`F2 = F + (rho/2)·I` has strictly positive diagonal; a column with
`F[i,i] = 0` is returned unchanged by `ODL_updateD`, so the bound can fail for
it when the initial column violates the constraint. -/
theorem C1_amended_norm_bound (D E : Matrix (Fin d) (Fin k) ℝ)
    (F : Matrix (Fin k) (Fin k) ℝ) (A : Matrix (Fin n) (Fin d) ℝ)
    (lambda1 tol : ℝ) (itO itA : ℕ) (hO : 1 ≤ itO) (hA : 1 ≤ itA) :
    (∀ i, F i i ≠ 0 → vecNorm2 (Mcol (ODL_updateD D E F itO tol) i) ≤ 1) ∧
    (∀ i, 0 ≤ F i i →
      vecNorm2 (Mcol (DLSI_updateD D E F A lambda1 itA) i) ≤ 1) := by
  constructor
  · intro i hF
    exact vecNorm2_le_one _ (ODL_updateD_col_nsq D E F itO tol hO i hF)
  · intro i hdiag
    obtain ⟨m, _, heq, h1m, _, _⟩ := DLSI_updateD_exists_iter D E F A lambda1 itA
    rw [heq]
    exact vecNorm2_le_one _
      (dlsiIter_D_nsq E F A lambda1 (dlsiInit D) m (h1m hA) i hdiag)

/-- C1 (witness): the amended claim instantiated at concrete `1 × 1` data. -/
theorem C1_witness :
    (∀ i, (!![(1 : ℝ)] : Matrix (Fin 1) (Fin 1) ℝ) i i ≠ 0 →
      vecNorm2 (Mcol (ODL_updateD !![(0 : ℝ)] !![(0 : ℝ)] !![(1 : ℝ)] 1
        (1e-8 : ℝ)) i) ≤ 1) ∧
    (∀ i, 0 ≤ (!![(1 : ℝ)] : Matrix (Fin 1) (Fin 1) ℝ) i i →
      vecNorm2 (Mcol (DLSI_updateD !![(0 : ℝ)] !![(0 : ℝ)] !![(1 : ℝ)]
        (0 : Matrix (Fin 1) (Fin 1) ℝ) 0 1) i) ≤ 1) :=
  C1_amended_norm_bound !![(0 : ℝ)] !![(0 : ℝ)] !![(1 : ℝ)]
    (0 : Matrix (Fin 1) (Fin 1) ℝ) 0 (1e-8 : ℝ) 1 1 (le_refl 1) (le_refl 1)

/-- C2: one sweep of `ODL_updateD` processes the columns `0 .. k-1` in index
order (Gauss–Seidel: the state after the first `m+1` column updates is the
column-`m` update applied to the state after the first `m` updates), and for
`F[i,i] ≠ 0` the column update writes
`a / max(‖a‖₂, 1)` with `a = (1/F[i,i])·(E[:,i] − D·F[:,i]) + D[:,i]`
computed from the current partially updated dictionary. -/
theorem C2_sweep_order (E : Matrix (Fin d) (Fin k) ℝ)
    (F : Matrix (Fin k) (Fin k) ℝ) (D D2 : Matrix (Fin d) (Fin k) ℝ)
    (m : Fin k) (i : Fin k) (hF : F i i ≠ 0) :
    ODL_sweep E F D = ODL_sweepTo E F k D ∧
    ODL_sweepTo E F ((m : ℕ) + 1) D2 =
      ODL_updateCol E F (ODL_sweepTo E F (m : ℕ) D2) m ∧
    ODL_updateCol E F D i = D.updateColumn i (fun r =>
      (1 / F i i * (E r i - ∑ j, D r j * F j i) + D r i) /
        max (Real.sqrt (∑ r2, (1 / F i i * (E r2 i - ∑ j, D r2 j * F j i)
          + D r2 i) ^ 2)) 1) := by
  refine ⟨ODL_sweep_eq_sweepTo E F D, ODL_sweepTo_succ E F D2 m, ?_⟩
  rw [ODL_updateCol, if_neg hF]
  rfl

/-- C2 (witness): the sweep-order claim instantiated at concrete `1 × 1`
data. -/
theorem C2_witness :
    ODL_sweep !![(0 : ℝ)] !![(1 : ℝ)] !![(3 : ℝ)] =
      ODL_sweepTo !![(0 : ℝ)] !![(1 : ℝ)] 1 !![(3 : ℝ)] ∧
    ODL_sweepTo !![(0 : ℝ)] !![(1 : ℝ)] (((0 : Fin 1) : ℕ) + 1) !![(4 : ℝ)] =
      ODL_updateCol !![(0 : ℝ)] !![(1 : ℝ)]
        (ODL_sweepTo !![(0 : ℝ)] !![(1 : ℝ)] ((0 : Fin 1) : ℕ) !![(4 : ℝ)]) 0 ∧
    ODL_updateCol !![(0 : ℝ)] !![(1 : ℝ)] !![(3 : ℝ)] 0 =
      Matrix.updateColumn !![(3 : ℝ)] 0 (fun r =>
        (1 / !![(1 : ℝ)] 0 0 * (!![(0 : ℝ)] r 0 -
            ∑ j, !![(3 : ℝ)] r j * !![(1 : ℝ)] j 0) + !![(3 : ℝ)] r 0) /
          max (Real.sqrt (∑ r2, (1 / !![(1 : ℝ)] 0 0 * (!![(0 : ℝ)] r2 0 -
            ∑ j, !![(3 : ℝ)] r2 j * !![(1 : ℝ)] j 0) + !![(3 : ℝ)] r2 0) ^ 2))
            1) :=
  C2_sweep_order !![(0 : ℝ)] !![(1 : ℝ)] !![(3 : ℝ)] !![(4 : ℝ)] 0 0
    (by rw [lit_one_apply]; norm_num)

/-- C6 (counterexample): as stated the claim is false.  With the positive
semidefinite `F = [[1]]`, `E = [[2]]` and the infeasible initial dictionary
`D = [[2]]`, one sweep moves the objective from `-4` to `-3`: the quadratic
objective increases. -/
theorem C6_counterexample :
    Matrix.PosSemidef (!![(1 : ℝ)]) ∧
    costODL !![(2 : ℝ)] !![(1 : ℝ)] !![(2 : ℝ)] = -4 ∧
    costODL !![(2 : ℝ)] !![(1 : ℝ)]
      (ODL_sweep !![(2 : ℝ)] !![(1 : ℝ)] !![(2 : ℝ)]) = -3 ∧
    ¬ (costODL !![(2 : ℝ)] !![(1 : ℝ)]
        (ODL_sweep !![(2 : ℝ)] !![(1 : ℝ)] !![(2 : ℝ)]) ≤
      costODL !![(2 : ℝ)] !![(1 : ℝ)] !![(2 : ℝ)]) := by
  have h1 : costODL !![(2 : ℝ)] !![(1 : ℝ)] !![(2 : ℝ)] = -4 := by
    rw [costODL_fin_one]
    norm_num [lit_one_apply]
  have h2 : costODL !![(2 : ℝ)] !![(1 : ℝ)]
      (ODL_sweep !![(2 : ℝ)] !![(1 : ℝ)] !![(2 : ℝ)]) = -3 := by
    rw [c6_sweep_eval, costODL_fin_one]
    norm_num [lit_one_apply]
  refine ⟨c6_psd, h1, h2, ?_⟩
  rw [h1, h2]
  norm_num

/-- C6 (amended): for positive semidefinite `F`, the quadratic objective is
non-increasing across sweeps provided every column with `F[j,j] ≠ 0` lies in
the unit ball at the start of the sweep — which holds for feasible initial
data, and automatically from the second sweep onward for arbitrary initial
data.  (The counterexample shows the first sweep from an infeasible initial
dictionary can increase the objective.) -/
theorem C6_amended_monotone (E : Matrix (Fin d) (Fin k) ℝ)
    (F : Matrix (Fin k) (Fin k) ℝ) (D D2 : Matrix (Fin d) (Fin k) ℝ)
    (m m2 : ℕ) (hpsd : F.PosSemidef) (hfeas : odlFeas F D) (hm2 : 1 ≤ m2) :
    costODL E F (ODL_sweep E F ((ODL_sweep E F)^[m] D)) ≤
      costODL E F ((ODL_sweep E F)^[m] D) ∧
    costODL E F (ODL_sweep E F ((ODL_sweep E F)^[m2] D2)) ≤
      costODL E F ((ODL_sweep E F)^[m2] D2) := by
  have hsym := fun p q => PosSemidef.symm_entries F hpsd p q
  have hdiag := fun j => PosSemidef.diag_nonneg_entries F hpsd j
  constructor
  · exact ODL_sweep_cost_le E F _ hsym hdiag (ODL_iter_feas E F D hfeas m)
  · obtain ⟨t, rfl⟩ : ∃ t, m2 = t + 1 := ⟨m2 - 1, by omega⟩
    refine ODL_sweep_cost_le E F _ hsym hdiag ?_
    rw [Function.iterate_succ_apply']
    exact ODL_sweep_feas E F _

/-- C6 (witness): the amended monotonicity claim instantiated at concrete
`1 × 1` data with the identity `F` and a feasible dictionary. -/
theorem C6_witness :
    costODL !![(0 : ℝ)] (1 : Matrix (Fin 1) (Fin 1) ℝ)
      (ODL_sweep !![(0 : ℝ)] (1 : Matrix (Fin 1) (Fin 1) ℝ)
        ((ODL_sweep !![(0 : ℝ)] (1 : Matrix (Fin 1) (Fin 1) ℝ))^[0]
          !![(1 : ℝ)])) ≤
      costODL !![(0 : ℝ)] (1 : Matrix (Fin 1) (Fin 1) ℝ)
        ((ODL_sweep !![(0 : ℝ)] (1 : Matrix (Fin 1) (Fin 1) ℝ))^[0]
          !![(1 : ℝ)]) ∧
    costODL !![(0 : ℝ)] (1 : Matrix (Fin 1) (Fin 1) ℝ)
      (ODL_sweep !![(0 : ℝ)] (1 : Matrix (Fin 1) (Fin 1) ℝ)
        ((ODL_sweep !![(0 : ℝ)] (1 : Matrix (Fin 1) (Fin 1) ℝ))^[1]
          !![(5 : ℝ)])) ≤
      costODL !![(0 : ℝ)] (1 : Matrix (Fin 1) (Fin 1) ℝ)
        ((ODL_sweep !![(0 : ℝ)] (1 : Matrix (Fin 1) (Fin 1) ℝ))^[1]
          !![(5 : ℝ)]) :=
  C6_amended_monotone !![(0 : ℝ)] (1 : Matrix (Fin 1) (Fin 1) ℝ) !![(1 : ℝ)]
    !![(5 : ℝ)] 0 1 Matrix.PosSemidef.one
    (by
      intro j hj
      have h : Mcol !![(1 : ℝ)] j = fun _ : Fin 1 => (1 : ℝ) := by
        funext r; simp only [Mcol]; rw [lit_one_apply]
      rw [h, nsq, Fin.sum_univ_one]
      norm_num)
    (le_refl 1)

/-- C7: if `F[i,i] = 0`, column `i` of the dictionary is returned bit-identical
by `ODL_updateD` — the update of that column is skipped as a defined no-op,
for any iteration budget and tolerance. -/
theorem C7_zero_diag_frame (D E : Matrix (Fin d) (Fin k) ℝ)
    (F : Matrix (Fin k) (Fin k) ℝ) (iters : ℕ) (tol : ℝ) (i : Fin k)
    (h : F i i = 0) :
    ∀ r, ODL_updateD D E F iters tol r i = D r i := by
  obtain ⟨m, _, heq, _, _, _⟩ := ODL_updateD_exists_iter D E F iters tol
  intro r
  rw [heq]
  exact congrFun (ODL_iter_col_zero E F i h m D) r

/-- C7 (witness): the frame claim instantiated at concrete `1 × 1` data with
a zero `F` and an infeasible column. -/
theorem C7_witness :
    ODL_updateD !![(2 : ℝ)] !![(0 : ℝ)] (0 : Matrix (Fin 1) (Fin 1) ℝ) 1
      (1e-8 : ℝ) 0 0 = !![(2 : ℝ)] 0 0 :=
  C7_zero_diag_frame !![(2 : ℝ)] !![(0 : ℝ)] (0 : Matrix (Fin 1) (Fin 1) ℝ)
    1 (1e-8 : ℝ) 0 rfl 0

/-- C8: `ODL_updateD` always terminates with the matrix reached after some
`m ≤ iterations` sweeps; when at least one iteration is allowed at least one
sweep runs; the loop continues exactly while the stopping test
`‖D − D_prev‖_F / numel(D) < tol` fails, and an early exit at `m < iterations`
happens exactly on a sweep whose stopping test succeeds.  Both exit paths
return the reached matrix through the same normal return. -/
theorem C8_termination (D E : Matrix (Fin d) (Fin k) ℝ)
    (F : Matrix (Fin k) (Fin k) ℝ) (iters : ℕ) (tol : ℝ) :
    ∃ m, m ≤ iters ∧ ODL_updateD D E F iters tol = (ODL_sweep E F)^[m] D ∧
      (1 ≤ iters → 1 ≤ m) ∧
      (∀ j, j + 1 < m → ¬ odlStop E F D tol j) ∧
      (m < iters → ∃ j, m = j + 1 ∧ odlStop E F D tol j) :=
  ODL_updateD_exists_iter D E F iters tol

/-- C3: every FISTA iteration computes
`x_new = shrinkage(y_old − (1/L)·grad(y_old), lamb/L)` elementwise
(soft-thresholding), `t_new = 0.5·(1 + sqrt(1 + 4·t_old²))` and
`y_new = x_new + ((t_old − 1)/t_new)·(x_new − x_old)`; for any budget of at
least one iteration, `Fista.solve` returns the `x_new` of the first iteration
whose `‖x_new − x_old‖₁ / x_new.size < tol` test succeeds, or of the last
budgeted iteration, whichever comes first. -/
theorem C3_fista_iteration (lf : LassoFitted d k N) (s : FistaState k N)
    (X0 : Matrix (Fin k) (Fin N) ℝ) (iters : ℕ) (tol : ℝ) (hit : 1 ≤ iters) :
    ((fistaStep lf s).x = Matrix.of fun i j =>
      Real.sign ((s.y - (1 / lf.L) • (lf.DtD * s.y - lf.DtY)) i j) *
        max (|(s.y - (1 / lf.L) • (lf.DtD * s.y - lf.DtY)) i j| -
          lf.lamb / lf.L) 0) ∧
    (fistaStep lf s).t = 0.5 * (1 + Real.sqrt (1 + 4 * s.t ^ 2)) ∧
    (fistaStep lf s).y = (fistaStep lf s).x +
      ((s.t - 1) / (fistaStep lf s).t) • ((fistaStep lf s).x - s.x) ∧
    ∃ m, 1 ≤ m ∧ m ≤ iters ∧
      fistaSolve lf X0 iters tol =
        some (((fistaStep lf)^[m] (fistaInit X0)).x) ∧
      (∀ j, j + 1 < m → ¬ fistaStopAt lf tol X0 j) ∧
      (m < iters → ∃ j, m = j + 1 ∧ fistaStopAt lf tol X0 j) :=
  ⟨rfl, rfl, rfl, fistaSolve_exists_iter lf X0 iters tol hit⟩

/-- C3 (witness): the FISTA iteration claim instantiated at a concrete
`1 × 1` Lasso instance. -/
theorem C3_witness :
    ((fistaStep (Lasso.fit (Lasso.init !![(1 : ℝ)] 0) !![(0 : ℝ)])
        ⟨!![(0 : ℝ)], !![(0 : ℝ)], 1⟩).x = Matrix.of fun i j =>
      Real.sign (((⟨!![(0 : ℝ)], !![(0 : ℝ)], 1⟩ : FistaState 1 1).y -
          (1 / (Lasso.fit (Lasso.init !![(1 : ℝ)] 0) !![(0 : ℝ)]).L) •
            ((Lasso.fit (Lasso.init !![(1 : ℝ)] 0) !![(0 : ℝ)]).DtD *
              (⟨!![(0 : ℝ)], !![(0 : ℝ)], 1⟩ : FistaState 1 1).y -
              (Lasso.fit (Lasso.init !![(1 : ℝ)] 0) !![(0 : ℝ)]).DtY)) i j) *
        max (|((⟨!![(0 : ℝ)], !![(0 : ℝ)], 1⟩ : FistaState 1 1).y -
          (1 / (Lasso.fit (Lasso.init !![(1 : ℝ)] 0) !![(0 : ℝ)]).L) •
            ((Lasso.fit (Lasso.init !![(1 : ℝ)] 0) !![(0 : ℝ)]).DtD *
              (⟨!![(0 : ℝ)], !![(0 : ℝ)], 1⟩ : FistaState 1 1).y -
              (Lasso.fit (Lasso.init !![(1 : ℝ)] 0) !![(0 : ℝ)]).DtY)) i j| -
          (Lasso.fit (Lasso.init !![(1 : ℝ)] 0) !![(0 : ℝ)]).lamb /
            (Lasso.fit (Lasso.init !![(1 : ℝ)] 0) !![(0 : ℝ)]).L) 0) ∧
    (fistaStep (Lasso.fit (Lasso.init !![(1 : ℝ)] 0) !![(0 : ℝ)])
        ⟨!![(0 : ℝ)], !![(0 : ℝ)], 1⟩).t =
      0.5 * (1 + Real.sqrt (1 + 4 *
        (⟨!![(0 : ℝ)], !![(0 : ℝ)], 1⟩ : FistaState 1 1).t ^ 2)) ∧
    (fistaStep (Lasso.fit (Lasso.init !![(1 : ℝ)] 0) !![(0 : ℝ)])
        ⟨!![(0 : ℝ)], !![(0 : ℝ)], 1⟩).y =
      (fistaStep (Lasso.fit (Lasso.init !![(1 : ℝ)] 0) !![(0 : ℝ)])
        ⟨!![(0 : ℝ)], !![(0 : ℝ)], 1⟩).x +
      (((⟨!![(0 : ℝ)], !![(0 : ℝ)], 1⟩ : FistaState 1 1).t - 1) /
        (fistaStep (Lasso.fit (Lasso.init !![(1 : ℝ)] 0) !![(0 : ℝ)])
          ⟨!![(0 : ℝ)], !![(0 : ℝ)], 1⟩).t) •
        ((fistaStep (Lasso.fit (Lasso.init !![(1 : ℝ)] 0) !![(0 : ℝ)])
          ⟨!![(0 : ℝ)], !![(0 : ℝ)], 1⟩).x -
          (⟨!![(0 : ℝ)], !![(0 : ℝ)], 1⟩ : FistaState 1 1).x) ∧
    ∃ m, 1 ≤ m ∧ m ≤ 1 ∧
      fistaSolve (Lasso.fit (Lasso.init !![(1 : ℝ)] 0) !![(0 : ℝ)])
          !![(0 : ℝ)] 1 (1e-8 : ℝ) =
        some (((fistaStep (Lasso.fit (Lasso.init !![(1 : ℝ)] 0)
          !![(0 : ℝ)]))^[m] (fistaInit !![(0 : ℝ)])).x) ∧
      (∀ j, j + 1 < m → ¬ fistaStopAt (Lasso.fit (Lasso.init !![(1 : ℝ)] 0)
        !![(0 : ℝ)]) (1e-8 : ℝ) !![(0 : ℝ)] j) ∧
      (m < 1 → ∃ j, m = j + 1 ∧ fistaStopAt (Lasso.fit
        (Lasso.init !![(1 : ℝ)] 0) !![(0 : ℝ)]) (1e-8 : ℝ) !![(0 : ℝ)] j) :=
  C3_fista_iteration (Lasso.fit (Lasso.init !![(1 : ℝ)] 0) !![(0 : ℝ)])
    ⟨!![(0 : ℝ)], !![(0 : ℝ)], 1⟩ !![(0 : ℝ)] 1 (1e-8 : ℝ) (le_refl 1)

/-- C4: every ADMM iteration of `DLSI_updateD` performs, in order, the primal
update through `ODL_updateD` with `E2 = E + (rho/2)·(Z_old − U)` and
`F2 = F + (rho/2)·I` on the fixed inner budget `100`, the auxiliary update
`Z_new = rho·(V − B1·(A·V))` with `V = D + U`, the residual stop test on
`e1` and `e2`, and the dual update `U + D − Z_new`; the function returns the
dictionary component `D` (never `Z`), also when the budget is exhausted
without the residual test succeeding. -/
theorem C4_admm_iteration (D E : Matrix (Fin d) (Fin k) ℝ)
    (F : Matrix (Fin k) (Fin k) ℝ) (A : Matrix (Fin n) (Fin d) ℝ)
    (lambda1 : ℝ) (iters : ℕ) (s : DLSIState d k) (hit : 1 ≤ iters) :
    ((dlsiStep E F A lambda1 s).D = ODL_updateD s.D
      (E + (dlsiRho / 2) • (s.Zold - s.U))
      (F + (dlsiRho / 2) • (1 : Matrix (Fin k) (Fin k) ℝ)) 100 (1e-8 : ℝ)) ∧
    ((dlsiStep E F A lambda1 s).Zold = dlsiRho •
      (((dlsiStep E F A lambda1 s).D + s.U) - dlsiB1 A lambda1 *
        (A * ((dlsiStep E F A lambda1 s).D + s.U)))) ∧
    ((dlsiStep E F A lambda1 s).U = s.U + (dlsiStep E F A lambda1 s).D -
      (dlsiStep E F A lambda1 s).Zold) ∧
    ∃ m, 1 ≤ m ∧ m ≤ iters ∧
      DLSI_updateD D E F A lambda1 iters =
        ((dlsiStep E F A lambda1)^[m] (dlsiInit D)).D ∧
      (∀ j, j + 1 < m → ¬ dlsiStopAt E F A lambda1 D j) ∧
      (m < iters → ∃ j, m = j + 1 ∧ dlsiStopAt E F A lambda1 D j) := by
  obtain ⟨m, h1, h2, h3, h4, h5⟩ := DLSI_updateD_exists_iter D E F A lambda1 iters
  exact ⟨rfl, rfl, rfl, m, h3 hit, h1, h2, h4, h5⟩

/-- C4 (witness): the ADMM iteration claim instantiated at concrete `1 × 1`
data. -/
theorem C4_witness :
    ((dlsiStep !![(0 : ℝ)] !![(1 : ℝ)] (0 : Matrix (Fin 1) (Fin 1) ℝ) 0
      (dlsiInit !![(0 : ℝ)])).D = ODL_updateD (dlsiInit !![(0 : ℝ)]).D
      (!![(0 : ℝ)] + (dlsiRho / 2) • ((dlsiInit !![(0 : ℝ)]).Zold -
        (dlsiInit !![(0 : ℝ)]).U))
      (!![(1 : ℝ)] + (dlsiRho / 2) • (1 : Matrix (Fin 1) (Fin 1) ℝ)) 100
      (1e-8 : ℝ)) ∧
    ((dlsiStep !![(0 : ℝ)] !![(1 : ℝ)] (0 : Matrix (Fin 1) (Fin 1) ℝ) 0
      (dlsiInit !![(0 : ℝ)])).Zold = dlsiRho •
      (((dlsiStep !![(0 : ℝ)] !![(1 : ℝ)] (0 : Matrix (Fin 1) (Fin 1) ℝ) 0
        (dlsiInit !![(0 : ℝ)])).D + (dlsiInit !![(0 : ℝ)]).U) -
        dlsiB1 (0 : Matrix (Fin 1) (Fin 1) ℝ) 0 *
        ((0 : Matrix (Fin 1) (Fin 1) ℝ) *
          ((dlsiStep !![(0 : ℝ)] !![(1 : ℝ)] (0 : Matrix (Fin 1) (Fin 1) ℝ) 0
            (dlsiInit !![(0 : ℝ)])).D + (dlsiInit !![(0 : ℝ)]).U)))) ∧
    ((dlsiStep !![(0 : ℝ)] !![(1 : ℝ)] (0 : Matrix (Fin 1) (Fin 1) ℝ) 0
      (dlsiInit !![(0 : ℝ)])).U = (dlsiInit !![(0 : ℝ)]).U +
      (dlsiStep !![(0 : ℝ)] !![(1 : ℝ)] (0 : Matrix (Fin 1) (Fin 1) ℝ) 0
        (dlsiInit !![(0 : ℝ)])).D -
      (dlsiStep !![(0 : ℝ)] !![(1 : ℝ)] (0 : Matrix (Fin 1) (Fin 1) ℝ) 0
        (dlsiInit !![(0 : ℝ)])).Zold) ∧
    ∃ m, 1 ≤ m ∧ m ≤ 1 ∧
      DLSI_updateD !![(0 : ℝ)] !![(0 : ℝ)] !![(1 : ℝ)]
        (0 : Matrix (Fin 1) (Fin 1) ℝ) 0 1 =
        ((dlsiStep !![(0 : ℝ)] !![(1 : ℝ)] (0 : Matrix (Fin 1) (Fin 1) ℝ)
          0)^[m] (dlsiInit !![(0 : ℝ)])).D ∧
      (∀ j, j + 1 < m → ¬ dlsiStopAt !![(0 : ℝ)] !![(1 : ℝ)]
        (0 : Matrix (Fin 1) (Fin 1) ℝ) 0 !![(0 : ℝ)] j) ∧
      (m < 1 → ∃ j, m = j + 1 ∧ dlsiStopAt !![(0 : ℝ)] !![(1 : ℝ)]
        (0 : Matrix (Fin 1) (Fin 1) ℝ) 0 !![(0 : ℝ)] j) :=
  C4_admm_iteration !![(0 : ℝ)] !![(0 : ℝ)] !![(1 : ℝ)]
    (0 : Matrix (Fin 1) (Fin 1) ℝ) 0 1 (dlsiInit !![(0 : ℝ)]) (le_refl 1)

/-- C5: with `X = (2·lambda1/rho)·Aᵀ`, `Y = A`, `B1 = X·(I + Y·X)⁻¹` and
`rho = 1`, the low-rank-update auxiliary step `Z_new = rho·(V − B1·(Y·V))`
agrees, for every `V`, with the direct solution
`(2·lambda1·Aᵀ·A + rho·I)⁻¹·(rho·V)` of the Z-subproblem, whenever the
inverted matrix `I + Y·X` is invertible. -/
theorem C5_lowrank_equiv (A : Matrix (Fin n) (Fin d) ℝ) (lambda1 : ℝ)
    (V : Matrix (Fin d) (Fin k) ℝ) (_hl : 0 ≤ lambda1)
    (h : IsUnit (1 + A * ((2 * lambda1 / dlsiRho) • A.transpose)).det) :
    dlsiRho • (V - dlsiB1 A lambda1 * (A * V)) =
      ((2 * lambda1) • (A.transpose * A) +
        dlsiRho • (1 : Matrix (Fin d) (Fin d) ℝ))⁻¹ * (dlsiRho • V) :=
  dlsi_push_through A lambda1 h V

/-- C5 (witness): the low-rank-update equivalence instantiated at `A = 0`,
`lambda1 = 0`, `V = [[5]]`, where `I + Y·X = I` is invertible. -/
theorem C5_witness :
    dlsiRho • (!![(5 : ℝ)] - dlsiB1 (0 : Matrix (Fin 1) (Fin 1) ℝ) 0 *
        ((0 : Matrix (Fin 1) (Fin 1) ℝ) * !![(5 : ℝ)])) =
      ((2 * (0 : ℝ)) • ((0 : Matrix (Fin 1) (Fin 1) ℝ).transpose *
          (0 : Matrix (Fin 1) (Fin 1) ℝ)) +
        dlsiRho • (1 : Matrix (Fin 1) (Fin 1) ℝ))⁻¹ * (dlsiRho • !![(5 : ℝ)]) :=
  C5_lowrank_equiv (0 : Matrix (Fin 1) (Fin 1) ℝ) 0 !![(5 : ℝ)] (le_refl 0)
    (by simp)

/-- C9: the Lasso constructor fixes `DtD = Dᵀ·D` and `L` = the largest
eigenvalue of `Dᵀ·D` once at construction; `fit(Y)` rebinds `Y` and
recomputes `DtY = Dᵀ·Y`; the gradient is `DtD·X − DtY = Dᵀ·D·X − Dᵀ·Y`; the
loss is `0.5·‖Y − D·X‖_F² + lamb·‖X‖₁`; and `solve` starts by fitting `Y`. -/
theorem C9_lasso_fields (D : Matrix (Fin d) (Fin k) ℝ) (lamb : ℝ)
    (Y : Matrix (Fin d) (Fin N) ℝ) (X : Matrix (Fin k) (Fin N) ℝ)
    (Xinit : Option (Matrix (Fin k) (Fin N) ℝ)) (iters : ℕ) (tol : ℝ)
    (hk : 0 < k) :
    (Lasso.init D lamb).DtD = D.transpose * D ∧
    (Lasso.init D lamb).L = lassoL D ∧
    (∀ i, (DtD_isHermitian D).eigenvalues i ≤ (Lasso.init D lamb).L) ∧
    (∃ i, (Lasso.init D lamb).L = (DtD_isHermitian D).eigenvalues i) ∧
    ((Lasso.init D lamb).fit Y).Y = Y ∧
    ((Lasso.init D lamb).fit Y).DtY = D.transpose * Y ∧
    LassoFitted.grad ((Lasso.init D lamb).fit Y) X =
      (D.transpose * D) * X - D.transpose * Y ∧
    LassoFitted.lossF ((Lasso.init D lamb).fit Y) X =
      0.5 * normF2 (Y - D * X) + lamb * norm1 X ∧
    Lasso.solve (Lasso.init D lamb) Y Xinit iters tol =
      fistaSolve ((Lasso.init D lamb).fit Y) (Xinit.getD 0) iters tol :=
  ⟨rfl, rfl, fun i => lassoL_ge D i, lassoL_attained D hk, rfl, rfl, rfl, rfl,
    rfl⟩

/-- C9 (witness): the Lasso-field claim instantiated at a concrete `1 × 1`
dictionary. -/
theorem C9_witness :
    (Lasso.init !![(1 : ℝ)] 0).DtD = !![(1 : ℝ)].transpose * !![(1 : ℝ)] ∧
    (Lasso.init !![(1 : ℝ)] 0).L = lassoL !![(1 : ℝ)] ∧
    (∀ i, (DtD_isHermitian !![(1 : ℝ)]).eigenvalues i ≤
      (Lasso.init !![(1 : ℝ)] 0).L) ∧
    (∃ i, (Lasso.init !![(1 : ℝ)] 0).L =
      (DtD_isHermitian !![(1 : ℝ)]).eigenvalues i) ∧
    ((Lasso.init !![(1 : ℝ)] 0).fit !![(0 : ℝ)]).Y = !![(0 : ℝ)] ∧
    ((Lasso.init !![(1 : ℝ)] 0).fit !![(0 : ℝ)]).DtY =
      !![(1 : ℝ)].transpose * !![(0 : ℝ)] ∧
    LassoFitted.grad ((Lasso.init !![(1 : ℝ)] 0).fit !![(0 : ℝ)]) !![(0 : ℝ)] =
      (!![(1 : ℝ)].transpose * !![(1 : ℝ)]) * !![(0 : ℝ)] -
        !![(1 : ℝ)].transpose * !![(0 : ℝ)] ∧
    LassoFitted.lossF ((Lasso.init !![(1 : ℝ)] 0).fit !![(0 : ℝ)]) !![(0 : ℝ)] =
      0.5 * normF2 (!![(0 : ℝ)] - !![(1 : ℝ)] * !![(0 : ℝ)]) +
        0 * norm1 !![(0 : ℝ)] ∧
    Lasso.solve (Lasso.init !![(1 : ℝ)] 0) !![(0 : ℝ)] none 1 (1e-8 : ℝ) =
      fistaSolve ((Lasso.init !![(1 : ℝ)] 0).fit !![(0 : ℝ)])
        (Option.getD none 0) 1 (1e-8 : ℝ) :=
  C9_lasso_fields !![(1 : ℝ)] 0 !![(0 : ℝ)] !![(0 : ℝ)] none 1 (1e-8 : ℝ)
    Nat.one_pos

/-- C10: `Lasso.solve` (and hence `Fista.solve`) returns normally only when
the iteration cap is at least one: with `iterations = 0` the Python code
raises `UnboundLocalError` because `x_new` is first assigned inside the loop,
modelled as the `none` result, while any positive cap produces a value. -/
theorem C10_solve_zero_iterations (l : Lasso d k)
    (Y : Matrix (Fin d) (Fin N) ℝ) (Xinit : Option (Matrix (Fin k) (Fin N) ℝ))
    (tol : ℝ) (iters : ℕ) (hit : 1 ≤ iters) :
    Lasso.solve l Y Xinit 0 tol = none ∧
    (Lasso.solve l Y Xinit iters tol).isSome = true := by
  refine ⟨rfl, ?_⟩
  obtain ⟨t, rfl⟩ : ∃ t, iters = t + 1 := ⟨iters - 1, by omega⟩
  rfl

/-- C10 (witness): the iteration-cap claim instantiated at a concrete `1 × 1`
Lasso instance. -/
theorem C10_witness :
    Lasso.solve (Lasso.init !![(1 : ℝ)] 0) !![(0 : ℝ)] none 0 (1e-8 : ℝ) =
      none ∧
    (Lasso.solve (Lasso.init !![(1 : ℝ)] 0) !![(0 : ℝ)] none 1
      (1e-8 : ℝ)).isSome = true :=
  C10_solve_zero_iterations (Lasso.init !![(1 : ℝ)] 0) !![(0 : ℝ)] none
    (1e-8 : ℝ) 1 (le_refl 1)
